import Mathlib

/-! # deFCrypt3 (`defcr3.c`): a shallow embedding and its verified properties

Bytes and words are natural numbers; every C conversion to `uint8_t` or
`uint16_t` is an explicit reduction modulo `2^8` or `2^16` of the `int` value
the C expression computes.  A byte buffer is a `List Nat`.  A load or a store
outside the buffer is undefined behaviour in C; the embedding gives it no
result (`none`), so every theorem that exhibits a result also shows that the
run stayed inside the buffer.  `int` has at least 32 bits and `size_t` holds
every size the program computes (all are below `2^21` on a file of bytes), so
the only wraparound is that of the `uint8_t` and `uint16_t` variables.
-/

namespace Defcr3

/-! ## Machine arithmetic and memory -/

/-- Conversion of a C `int` value to `uint8_t`. -/
def u8 (x : Int) : Nat := (x % 256).toNat

/-- Conversion of a C `int` value to `uint16_t`. -/
def u16 (x : Int) : Nat := (x % 65536).toNat

/-- The load `buffer[p]`; `none` when `p` lies outside the buffer. -/
def load (buffer : List Nat) (p : Nat) : Option Nat := buffer[p]?

/-- The store `buffer[p] = v`; `none` when `p` lies outside the buffer. -/
def store (buffer : List Nat) (p v : Nat) : Option (List Nat) :=
  if p < buffer.length then some (buffer.set p v) else none

/-- The loop `for (i = start; i < stop; i += step) body`, started at `i` with
`fuel` bounding the number of iterations still allowed.  A body that has no
result (undefined behaviour) ends the run; so does running out of fuel while
`i < stop`, which does not happen with `fuel = stop`, `start = 0`, `0 < step`. -/
def forLoop {σ : Type} (stop step : Nat) (body : Nat → σ → Option σ) :
    Nat → Nat → σ → Option σ
  | 0, i, s => if i < stop then none else some s
  | fuel + 1, i, s =>
    if i < stop then (body i s).bind (forLoop stop step body fuel (i + step)) else some s

/-! ## Header field indices (lines 28-49) -/

def e_magic : Nat := 0x00
def e_cblp : Nat := 0x01
def e_cp : Nat := 0x02
def e_crlc : Nat := 0x03
def e_cparhdr : Nat := 0x04
def e_minalloc : Nat := 0x05
def e_maxalloc : Nat := 0x06
def e_ss : Nat := 0x07
def e_sp : Nat := 0x08
def e_csum : Nat := 0x09
def e_ip : Nat := 0x0a
def e_cs : Nat := 0x0b
def e_lfarlc : Nat := 0x0c

def f_sp : Nat := 0x00
def f_ss : Nat := 0x01
def f_ip : Nat := 0x02
def f_cs : Nat := 0x03
def f_cpar : Nat := 0x04
def f_key : Nat := 0x05
def f_csum_add : Nat := 0x06
def f_csum_sub : Nat := 0x07

/-! ## Header codec (lines 24-26)

The macros take a pointer; here the pointer is a buffer and a byte offset `p`.
`&words[k]` of a `uint16_t` array is byte offset `2 * k`. -/

/-- `MEM_GETB(p)`: the byte at `p`. -/
def MEM_GETB (mem : List Nat) (p : Nat) : Option Nat := load mem p

/-- `MEM_GETW_LE(p)`: `(p[1] << 8) | p[0]`. -/
def MEM_GETW_LE (mem : List Nat) (p : Nat) : Option Nat := do
  let hi ← load mem (p + 1)
  let lo ← load mem p
  pure ((hi <<< 8) ||| lo)

/-- `MEM_PUTW_LE(p, v)`: `p[0] = v & 0xff, p[1] = (v >> 8) & 0xff`. -/
def MEM_PUTW_LE (mem : List Nat) (p v : Nat) : Option (List Nat) := do
  let mem ← store mem p (v &&& 0xff)
  store mem (p + 1) ((v >>> 8) &&& 0xff)

/-- The access `words[k]` of a `uint16_t` array as a value, in the byte order
of the host (`bigEndian` or not). -/
def word_host (bigEndian : Bool) (mem : List Nat) (k : Nat) : Option Nat := do
  let b0 ← load mem (2 * k)
  let b1 ← load mem (2 * k + 1)
  pure (if bigEndian then (b0 <<< 8) ||| b1 else (b1 <<< 8) ||| b0)

/-- The assignment `((uint16_t *)dst)[k] = src[m]` between two `uint16_t`
views: the two bytes of the object representation are copied, whatever the
byte order of the host. -/
def copy_word (dst : List Nat) (k : Nat) (src : List Nat) (m : Nat) : Option (List Nat) := do
  let b0 ← load src (2 * m)
  let b1 ← load src (2 * m + 1)
  let dst ← store dst (2 * k) b0
  store dst (2 * k + 1) b1

/-! ## `fcr3_checksum` (lines 59-68) -/

/-- The body `checksum -= buffer[i]` of the loop of `fcr3_checksum`; the state
is the buffer (never stored to) and the running checksum. -/
def fcr3_checksum_body (i : Nat) (s : List Nat × Nat) : Option (List Nat × Nat) := do
  let b ← load s.1 i
  pure (s.1, u16 ((s.2 : Int) - b))

/-- The function `fcr3_checksum(buffer, length)`: the returned checksum and
the buffer as the call leaves it. -/
def fcr3_checksum (buffer : List Nat) (length : Nat) : Option (Nat × List Nat) :=
  (forLoop length 1 fcr3_checksum_body length 0 (buffer, 0)).map (fun s => (s.2, s.1))

/-! ## `fcr3_decrypt` (lines 70-91) -/

/-- The local state of `fcr3_decrypt`: the buffer, the rolling key and the
running checksum. -/
structure DecState where
  buffer : List Nat
  key : Nat
  checksum : Nat
deriving DecidableEq

/-- The body of the first inner loop (lines 77-81), with the `++key` of its
increment clause: `checksum += buffer[i + j]; buffer[i + j] = key - buffer[i + j]`. -/
def stageA_body (i j : Nat) (s : DecState) : Option DecState := do
  let b ← load s.buffer (i + j)
  let checksum := u16 ((s.checksum : Int) + b)
  let b ← load s.buffer (i + j)
  let buffer ← store s.buffer (i + j) (u8 ((s.key : Int) - b))
  pure { buffer := buffer, key := u8 ((s.key : Int) + 1), checksum := checksum }

/-- The body of the second inner loop (lines 83-87):
`buffer[i + j + 8] -= buffer[i + j]; buffer[i + j] ^= buffer[i + j + 8]`. -/
def stageB_body (i j : Nat) (s : DecState) : Option DecState := do
  let hi ← load s.buffer (i + j + 8)
  let lo ← load s.buffer (i + j)
  let buffer ← store s.buffer (i + j + 8) (u8 ((hi : Int) - lo))
  let lo ← load buffer (i + j)
  let hi ← load buffer (i + j + 8)
  let buffer ← store buffer (i + j) (u8 ((lo ^^^ hi : Nat) : Int))
  pure { s with buffer := buffer }

/-- The body of the outer loop (lines 76-88): both inner loops on the block at `i`. -/
def block_body (i : Nat) (s : DecState) : Option DecState :=
  (forLoop 0x10 1 (stageA_body i) 0x10 0 s).bind (forLoop 8 1 (stageB_body i) 8 0)

/-- The function `fcr3_decrypt(buffer, length, key)`: the returned checksum and
the buffer as the call leaves it. -/
def fcr3_decrypt (buffer : List Nat) (length key : Nat) : Option (Nat × List Nat) :=
  (forLoop length 0x10 block_body length 0
    { buffer := buffer, key := key, checksum := 0 }).map (fun s => (s.checksum, s.buffer))

/-! ## `main` (lines 112-191)

The input file is the list of its bytes; the result is the content written to
the output file, or the way the run ends without one.  The embedding starts
after the input file has been opened, and takes `fseek` on the regular input
file, `malloc` and the writes to the output file to succeed. -/

/-- The ways a run ends without an output file: the four diagnostics of `die`
that depend on the content of the input, and undefined behaviour (a load or a
store outside its buffer). -/
inductive Failure where
  | readError
  | exeHeaderNotFound
  | badHeader
  | fileCorrupted
  | undefinedBehaviour
deriving DecidableEq

/-- A result that is undefined in C ends the run as `undefinedBehaviour`. -/
def defined {α : Type} : Option α → Except Failure α
  | some a => .ok a
  | none => .error .undefinedBehaviour

/-- `fread(dst, 1, n, fp_in) != n` with the file position at `pos`: the `n`
bytes read, or `Read error!` when the file holds fewer. -/
def fread (file : List Nat) (pos n : Nat) : Except Failure (List Nat) :=
  if pos + n ≤ file.length then .ok ((file.drop pos).take n) else .error .readError

/-- What `main` holds once the headers are validated and the image is loaded
(line 156): the protector header, the loaded buffer, `decoder_start` (after
line 151) and `data_length`. -/
structure Loaded where
  fcrypt3_header : List Nat
  buffer : List Nat
  decoder_start : Nat
  data_length : Nat
deriving DecidableEq

/-- Lines 130-156 of `main`: read and check both headers, load the image.  The
three fields of line 145 are loaded before the test; each load is inside the
16-byte header, so the short-circuit order of `||` makes no difference. -/
def main_load (bigEndian : Bool) (file : List Nat) : Except Failure Loaded := do
  let exe_mz_header ← fread file 0 0x20
  let magic ← defined (word_host bigEndian exe_mz_header e_magic)
  if magic ≠ 0x5a4d ∧ magic ≠ 0x4d5a then .error .exeHeaderNotFound else
  let cs ← defined (MEM_GETW_LE exe_mz_header (2 * e_cs))
  let decoder_start := cs <<< 4
  let cparhdr ← defined (MEM_GETW_LE exe_mz_header (2 * e_cparhdr))
  let header_length := cparhdr <<< 4
  let fcrypt3_header ← fread file (header_length + decoder_start) 0x10
  let cpar ← defined (MEM_GETW_LE fcrypt3_header (2 * f_cpar))
  let data_length := cpar <<< 4
  let fcs ← defined (MEM_GETW_LE fcrypt3_header (2 * f_cs))
  let fip ← defined (MEM_GETW_LE fcrypt3_header (2 * f_ip))
  if data_length = 0 ∨ decoder_start < data_length ∨ data_length < (fcs <<< 4) + fip then
    .error .badHeader
  else
  let decoder_start := decoder_start + header_length
  let buffer ← fread file 0 decoder_start
  pure { fcrypt3_header := fcrypt3_header, buffer := buffer,
         decoder_start := decoder_start, data_length := data_length }

/-- Lines 171-174 of `main`: the page count and the bytes in the last page for
an image of `decoder_start` bytes. -/
def size_fields (decoder_start : Nat) : Nat × Nat :=
  let data_length := decoder_start / 0x200
  let header_length := decoder_start % 0x200
  let data_length := if header_length ≠ 0 then data_length + 1 else data_length
  (data_length, header_length)

/-- Lines 160-183 of `main`: both integrity gates, the decode, the patch of the
entry context and of the size fields, and the image written out.  The pointer
`buffer + (decoder_start - data_length)` is the buffer from that offset on. -/
def main_decode (l : Loaded) : Except Failure (List Nat) := do
  let base := l.decoder_start - l.data_length
  let (sub, payload) ← defined (fcr3_checksum (l.buffer.drop base) l.data_length)
  let csum_sub ← defined (MEM_GETW_LE l.fcrypt3_header (2 * f_csum_sub))
  if sub ≠ csum_sub then .error .fileCorrupted else
  let key ← defined (MEM_GETB l.fcrypt3_header (2 * f_key))
  let (add, payload) ← defined (fcr3_decrypt payload l.data_length key)
  let csum_add ← defined (MEM_GETW_LE l.fcrypt3_header (2 * f_csum_add))
  if add ≠ csum_add then .error .fileCorrupted else
  let buffer := l.buffer.take base ++ payload
  let buffer ← defined (copy_word buffer e_sp l.fcrypt3_header f_sp)
  let buffer ← defined (copy_word buffer e_ss l.fcrypt3_header f_ss)
  let buffer ← defined (copy_word buffer e_ip l.fcrypt3_header f_ip)
  let buffer ← defined (copy_word buffer e_cs l.fcrypt3_header f_cs)
  let (data_length, header_length) := size_fields l.decoder_start
  let buffer ← defined (MEM_PUTW_LE buffer (2 * e_cp) data_length)
  let buffer ← defined (MEM_PUTW_LE buffer (2 * e_cblp) header_length)
  pure (buffer.take l.decoder_start)

/-- The function `main` on the bytes of the input file. -/
def main (bigEndian : Bool) (file : List Nat) : Except Failure (List Nat) :=
  main_load bigEndian file >>= main_decode

/-! ## Closed forms used by the proofs -/

/-- The byte stage A leaves at offset `q` of the block at `i`. -/
def stageA_val (key : Nat) (buf : List Nat) (i q : Nat) : Nat :=
  u8 ((key : Int) + q - buf.getD (i + q) 0)

/-- The byte the two stages leave at index `m` of the block at `i`. -/
def block_val (key : Nat) (buf : List Nat) (i m : Nat) : Nat :=
  if m < i + 8 then
    u8 ((stageA_val key buf i (m - i) ^^^
      u8 ((stageA_val key buf i (m - i + 8) : Int) - stageA_val key buf i (m - i)) : Nat) : Int)
  else
    u8 ((stageA_val key buf i (m - i) : Int) - stageA_val key buf i (m - i - 8))

/-- The byte `fcr3_decrypt` leaves at index `m` of a payload `buf` decoded
with starting key `key`. -/
def plain_byte (key : Nat) (buf : List Nat) (m : Nat) : Nat :=
  block_val (key + 16 * (m / 16)) buf (16 * (m / 16)) m

/-- The byte stage A leaves at index `m` of the payload: the rolling key at
`m` minus the original byte. -/
def unmasked (k : Nat) (c : List Nat) (m : Nat) : Nat :=
  u8 ((k : Int) + m - c.getD m 0)

/-- The inverse transform as the round-trip property words it: per block, for
`j` in `0..7`, `x[j] = d[j] XOR d[j+8]` and `x[j+8] = (d[j+8] + x[j]) mod 256`;
then `c[m] = (key_m - x[m]) mod 256`, with `key_m = (k + m) mod 256` the
rolling key at byte `m`. -/
def spec_inverse (k : Nat) (d : List Nat) : List Nat :=
  (List.range d.length).map fun m =>
    let x : Nat → Nat := fun n => d.getD n 0 ^^^ d.getD (n + 8) 0
    let xm := if m % 16 < 8 then x m else (d.getD m 0 + x (m - 8)) % 256
    u8 (((k + m) % 256 : Nat) - (xm : Int))

/-- The image after lines 166-177 when every store lands inside the buffer. -/
def patched (buffer fh : List Nat) (decoder_start : Nat) : List Nat :=
  let b := (buffer.set 16 (fh.getD 0 0)).set 17 (fh.getD 1 0)
  let b := (b.set 14 (fh.getD 2 0)).set 15 (fh.getD 3 0)
  let b := (b.set 20 (fh.getD 4 0)).set 21 (fh.getD 5 0)
  let b := (b.set 22 (fh.getD 6 0)).set 23 (fh.getD 7 0)
  let b := (b.set 4 ((size_fields decoder_start).1 &&& 0xff)).set 5
    (((size_fields decoder_start).1 >>> 8) &&& 0xff)
  (b.set 2 ((size_fields decoder_start).2 &&& 0xff)).set 3
    (((size_fields decoder_start).2 >>> 8) &&& 0xff)


/-! ## Sample data -/

/-- A one-block payload. -/
def sample_payload : List Nat := [1, 2, 3, 4, 5, 6, 7, 8, 9, 10, 11, 12, 13, 14, 15, 16]

/-- The sample payload with its first two bytes exchanged. -/
def swapped_payload : List Nat := [2, 1, 3, 4, 5, 6, 7, 8, 9, 10, 11, 12, 13, 14, 15, 16]

/-- An image of 48 bytes with a one-block payload, its protector header and
three trailing bytes: header of 2 paragraphs, `e_cs = 1`, key `0x42`. -/
def sample_file : List Nat :=
  [0x4d, 0x5a, 0, 0, 0, 0, 0, 0, 2, 0, 0, 0, 0, 0, 0x11, 0x22,
   0x33, 0x44, 0, 0, 0x55, 0x66, 1, 0, 0, 0, 0, 0, 0, 0, 0, 0,
   1, 2, 3, 4, 5, 6, 7, 8, 9, 10, 11, 12, 13, 14, 15, 16,
   0xa0, 0xa1, 0xb0, 0xb1, 3, 0, 0, 0, 1, 0, 0x42, 0x99, 136, 0, 0x78, 0xff,
   9, 9, 9]

/-- An input of 32 bytes that passes both validations with a header of 0
paragraphs and `e_cs = 1`: the image is 16 bytes long and the protector header
overlaps the second half of the primary header. -/
def short_image : List Nat :=
  [0x4d, 0x5a, 0, 0, 0, 0, 0, 0, 0, 0, 0, 0, 0, 0, 0, 0,
   0, 0, 0, 0, 0, 0, 1, 0, 1, 0, 0, 0, 0xa7, 0, 0x59, 0xff]

/-- The sample file with words 6 and 7 of its protector header exchanged: the
subtractive checksum in word 6, the additive one in word 7. -/
def swapped_sums_file : List Nat :=
  [0x4d, 0x5a, 0, 0, 0, 0, 0, 0, 2, 0, 0, 0, 0, 0, 0x11, 0x22,
   0x33, 0x44, 0, 0, 0x55, 0x66, 1, 0, 0, 0, 0, 0, 0, 0, 0, 0,
   1, 2, 3, 4, 5, 6, 7, 8, 9, 10, 11, 12, 13, 14, 15, 16,
   0xa0, 0xa1, 0xb0, 0xb1, 3, 0, 0, 0, 1, 0, 0x42, 0x99, 0x78, 0xff, 136, 0,
   9, 9, 9]

/-- An input of 80 bytes: header of 2 paragraphs, `e_cs = 2`, an all-zero
image body, and a protector header with `cpar = 1` and every other field 0. -/
def low_entry_file : List Nat :=
  [0x4d, 0x5a, 0, 0, 0, 0, 0, 0, 2, 0, 0, 0, 0, 0, 0, 0,
   0, 0, 0, 0, 0, 0, 2, 0, 0, 0, 0, 0, 0, 0, 0, 0,
   0, 0, 0, 0, 0, 0, 0, 0, 0, 0, 0, 0, 0, 0, 0, 0,
   0, 0, 0, 0, 0, 0, 0, 0, 0, 0, 0, 0, 0, 0, 0, 0,
   0, 0, 0, 0, 0, 0, 0, 0, 1, 0, 0, 0, 0, 0, 0, 0]

/-! ## Machine arithmetic and the loop rule -/

theorem u8_lt (x : Int) : u8 x < 256 := by unfold u8; omega

theorem u16_lt (x : Int) : u16 x < 65536 := by unfold u16; omega

theorem u8_add (a b : Int) : u8 ((u8 a : Int) + b) = u8 (a + b) := by unfold u8; omega

theorem u8_of_lt (x : Nat) (h : x < 256) : u8 (x : Int) = x := by unfold u8; omega

theorem u16_add (a b : Int) : u16 ((u16 a : Int) + b) = u16 (a + b) := by unfold u16; omega

/-- Loop rule: an invariant kept by every iteration holds when the loop ends,
and the loop does end with a result when the fuel covers the distance. -/
theorem forLoop_inv {σ : Type} (stop step : Nat) (body : Nat → σ → Option σ)
    (Inv : Nat → σ → Prop) (hstep : 0 < step)
    (hbody : ∀ i s, i < stop → Inv i s → ∃ t, body i s = some t ∧ Inv (i + step) t) :
    ∀ fuel i s, stop ≤ i + fuel → Inv i s →
      ∃ t k, forLoop stop step body fuel i s = some t ∧ Inv (i + k * step) t ∧
        stop ≤ i + k * step ∧ (k = 0 ∨ i + k * step < stop + step) := by
  intro fuel
  induction fuel with
  | zero =>
    intro i s hf hI
    refine ⟨s, 0, ?_, by simpa using hI, by omega, Or.inl rfl⟩
    have : ¬ i < stop := by omega
    simp [forLoop, this]
  | succ n ih =>
    intro i s hf hI
    by_cases hlt : i < stop
    · obtain ⟨t, ht, hI2⟩ := hbody i s hlt hI
      obtain ⟨r, k, hr, hI3, hge, hk⟩ := ih (i + step) t (by omega) hI2
      refine ⟨r, k + 1, ?_, ?_, ?_, Or.inr ?_⟩
      · simp [forLoop, hlt, ht, hr]
      · have : i + (k + 1) * step = i + step + k * step := by ring
        rw [this]; exact hI3
      · have : i + (k + 1) * step = i + step + k * step := by ring
        omega
      · have : i + (k + 1) * step = i + step + k * step := by ring
        rcases hk with hk | hk
        · subst hk; omega
        · omega
    · refine ⟨s, 0, ?_, by simpa using hI, by omega, Or.inl rfl⟩
      simp [forLoop, hlt]

/-- Loop rule for a unit-step loop started at `0` with `fuel = stop`. -/
theorem forLoop_inv_unit {σ : Type} (stop : Nat) (body : Nat → σ → Option σ)
    (Inv : Nat → σ → Prop)
    (hbody : ∀ i s, i < stop → Inv i s → ∃ t, body i s = some t ∧ Inv (i + 1) t)
    (s : σ) (h0 : Inv 0 s) :
    ∃ t, forLoop stop 1 body stop 0 s = some t ∧ Inv stop t := by
  obtain ⟨t, k, ht, hI, hge, hk⟩ :=
    forLoop_inv stop 1 body Inv (by decide) hbody stop 0 s (by omega) h0
  refine ⟨t, ht, ?_⟩
  have : 0 + k * 1 = stop := by
    rcases hk with hk | hk
    · subst hk; omega
    · omega
  rw [this] at hI; exact hI

theorem stageA_body_eq (i j : Nat) (s : DecState) (h : i + j < s.buffer.length) :
    stageA_body i j s = some
      { buffer := s.buffer.set (i + j) (u8 ((s.key : Int) - s.buffer.getD (i + j) 0)),
        key := u8 ((s.key : Int) + 1),
        checksum := u16 ((s.checksum : Int) + s.buffer.getD (i + j) 0) } := by
  simp [stageA_body, load, store, h, List.getD_eq_getElem?_getD]

theorem stageB_body_eq (i j : Nat) (s : DecState) (h : i + j + 8 < s.buffer.length) :
    stageB_body i j s = some
      { buffer :=
          (s.buffer.set (i + j + 8)
            (u8 ((s.buffer.getD (i + j + 8) 0 : Int) - s.buffer.getD (i + j) 0))).set (i + j)
            (u8 ((s.buffer.getD (i + j) 0 ^^^
              u8 ((s.buffer.getD (i + j + 8) 0 : Int) - s.buffer.getD (i + j) 0) : Nat) : Int)),
        key := s.key, checksum := s.checksum } := by
  have h2 : i + j < s.buffer.length := by omega
  simp [stageB_body, load, store, h, h2, List.getD_eq_getElem?_getD, List.getElem_set]

theorem getD_set_eq (l : List Nat) (p v m : Nat) :
    (l.set p v).getD m 0 = if p = m ∧ p < l.length then v else l.getD m 0 := by
  simp only [List.getD_eq_getElem?_getD, List.getElem?_set]
  by_cases h : p = m
  · subst h
    by_cases h2 : p < l.length
    · simp [h2]
    · simp [h2]
      have : l[p]? = none := by simp; omega
      simp [this]
  · simp [h]

theorem sum_take_succ (l : List Nat) (j : Nat) (h : j < l.length) :
    (l.take (j + 1)).sum = (l.take j).sum + l.getD j 0 := by
  rw [List.take_succ, List.sum_append]
  simp [List.getD_eq_getElem?_getD, List.getElem?_eq_getElem h]

theorem stageA_loop (i : Nat) (buf : List Nat) (key ck : Nat) (h : i + 16 ≤ buf.length)
    (hck : ck < 65536) :
    ∃ t, forLoop 0x10 1 (stageA_body i) 0x10 0 ⟨buf, key, ck⟩ = some t ∧
      t.buffer.length = buf.length ∧ t.key = u8 ((key : Int) + 16) ∧
      t.checksum = u16 ((ck : Int) + ((buf.drop i).take 16).sum) ∧
      ∀ m, t.buffer.getD m 0 =
        if i ≤ m ∧ m < i + 16 then stageA_val key buf i (m - i) else buf.getD m 0 := by
  obtain ⟨t, ht, h1, ⟨h2, h2b⟩, h3, h4⟩ := forLoop_inv_unit 0x10 (stageA_body i)
    (fun j s => s.buffer.length = buf.length ∧
      (u8 (s.key : Int) = u8 ((key : Int) + j) ∧ (0 < j → s.key < 256)) ∧
      s.checksum = u16 ((ck : Int) + ((buf.drop i).take j).sum) ∧
      ∀ m, s.buffer.getD m 0 =
        if i ≤ m ∧ m < i + j then stageA_val key buf i (m - i) else buf.getD m 0)
    (by
      rintro j s hj ⟨h1, ⟨h2, _⟩, h3, h4⟩
      refine ⟨_, stageA_body_eq i j s (by omega), ?_, ⟨?_, ?_⟩, ?_, ?_⟩
      · simp [h1]
      · simp only []
        unfold u8 at h2 ⊢; push_cast; omega
      · intro _; exact u8_lt ((s.key : Int) + 1)
      · have e : s.buffer.getD (i + j) 0 = buf.getD (i + j) 0 := by
          rw [h4]; simp
        simp only [h3, e]
        rw [u16_add, sum_take_succ _ j (by simp; omega)]
        congr 1
        simp [List.getD_eq_getElem?_getD]
        ring
      · intro m
        simp only [getD_set_eq, h4]
        by_cases hm : i + j = m
        · subst hm
          have : i + j < s.buffer.length := by omega
          simp [this, stageA_val]
          unfold u8 at h2 ⊢; omega
        · simp only [hm, false_and, if_false]
          by_cases hm2 : i ≤ m ∧ m < i + j
          · have : i ≤ m ∧ m < i + (j + 1) := by omega
            simp [hm2, this]
          · have : ¬ (i ≤ m ∧ m < i + (j + 1)) := by omega
            simp [hm2, this])
    ⟨buf, key, ck⟩ (by
      refine ⟨rfl, ⟨by simp, by simp⟩, ?_, ?_⟩
      · simp; unfold u16; omega
      · intro m; have : ¬ (i ≤ m ∧ m < i + 0) := by omega
        simp only [this, if_false])
  refine ⟨t, ht, h1, ?_, by simpa using h3, by simpa using h4⟩
  have := h2b (by decide)
  rw [← u8_of_lt t.key this, h2]; rfl

theorem stageB_loop (i : Nat) (buf : List Nat) (key ck : Nat) (h : i + 16 ≤ buf.length) :
    ∃ t, forLoop 8 1 (stageB_body i) 8 0 ⟨buf, key, ck⟩ = some t ∧
      t.buffer.length = buf.length ∧ t.key = key ∧ t.checksum = ck ∧
      ∀ m, t.buffer.getD m 0 =
        if i ≤ m ∧ m < i + 8 then
          u8 ((buf.getD m 0 ^^^ u8 ((buf.getD (m + 8) 0 : Int) - buf.getD m 0) : Nat) : Int)
        else if i + 8 ≤ m ∧ m < i + 16 then
          u8 ((buf.getD m 0 : Int) - buf.getD (m - 8) 0)
        else buf.getD m 0 := by
  obtain ⟨t, ht, h1, h2, h3, h4⟩ := forLoop_inv_unit 8 (stageB_body i)
    (fun j s => s.buffer.length = buf.length ∧ s.key = key ∧ s.checksum = ck ∧
      ∀ m, s.buffer.getD m 0 =
        if i ≤ m ∧ m < i + j then
          u8 ((buf.getD m 0 ^^^ u8 ((buf.getD (m + 8) 0 : Int) - buf.getD m 0) : Nat) : Int)
        else if i + 8 ≤ m ∧ m < i + 8 + j then
          u8 ((buf.getD m 0 : Int) - buf.getD (m - 8) 0)
        else buf.getD m 0)
    (by
      rintro j s hj ⟨h1, h2, h3, h4⟩
      refine ⟨_, stageB_body_eq i j s (by omega), ?_, h2, h3, ?_⟩
      · simp [h1]
      · intro m
        have elo : s.buffer.getD (i + j) 0 = buf.getD (i + j) 0 := by
          rw [h4]
          have c1 : ¬ (i ≤ i + j ∧ i + j < i + j) := by omega
          have c2 : ¬ (i + 8 ≤ i + j ∧ i + j < i + 8 + j) := by omega
          simp only [c1, c2, if_false]
        have ehi : s.buffer.getD (i + j + 8) 0 = buf.getD (i + j + 8) 0 := by
          rw [h4]
          have c1 : ¬ (i ≤ i + j + 8 ∧ i + j + 8 < i + j) := by omega
          have c2 : ¬ (i + 8 ≤ i + j + 8 ∧ i + j + 8 < i + 8 + j) := by omega
          simp only [c1, c2, if_false]
        simp only [getD_set_eq, List.length_set, elo, ehi, h4]
        by_cases hm : i + j = m
        · subst hm
          have c0 : i + j < s.buffer.length := by omega
          have c1 : i ≤ i + j ∧ i + j < i + (j + 1) := by omega
          simp only [c0, c1, and_self, if_true]
        · have c0 : ¬ (i + j = m ∧ i + j < s.buffer.length) := by omega
          simp only [c0, if_false]
          by_cases hm8 : i + j + 8 = m
          · subst hm8
            have c1 : i + j + 8 < s.buffer.length := by omega
            have c2 : ¬ (i ≤ i + j + 8 ∧ i + j + 8 < i + (j + 1)) := by omega
            have c3 : i + 8 ≤ i + j + 8 ∧ i + j + 8 < i + 8 + (j + 1) := by omega
            simp only [c1, c2, c3, and_self, if_true, if_false]
            congr 2
          · have c1 : ¬ (i + j + 8 = m ∧ i + j + 8 < s.buffer.length) := by omega
            have c2 : (i ≤ m ∧ m < i + (j + 1)) ↔ (i ≤ m ∧ m < i + j) := by omega
            have c3 : (i + 8 ≤ m ∧ m < i + 8 + (j + 1)) ↔ (i + 8 ≤ m ∧ m < i + 8 + j) := by omega
            simp only [c1, c2, c3, if_false])
    ⟨buf, key, ck⟩ (by
      refine ⟨rfl, rfl, rfl, ?_⟩
      intro m
      have c1 : ¬ (i ≤ m ∧ m < i + 0) := by omega
      have c2 : ¬ (i + 8 ≤ m ∧ m < i + 8 + 0) := by omega
      simp only [c1, c2, if_false])
  exact ⟨t, ht, h1, h2, h3, h4⟩

theorem block_body_spec (i : Nat) (buf : List Nat) (key ck : Nat) (h : i + 16 ≤ buf.length)
    (hck : ck < 65536) :
    ∃ t, block_body i ⟨buf, key, ck⟩ = some t ∧
      t.buffer.length = buf.length ∧ t.key = u8 ((key : Int) + 16) ∧
      t.checksum = u16 ((ck : Int) + ((buf.drop i).take 16).sum) ∧
      ∀ m, t.buffer.getD m 0 =
        if i ≤ m ∧ m < i + 16 then block_val key buf i m else buf.getD m 0 := by
  obtain ⟨a, ha, a1, a2, a3, a4⟩ := stageA_loop i buf key ck h hck
  obtain ⟨b, hb, b1, b2, b3, b4⟩ := stageB_loop i a.buffer a.key a.checksum (by omega)
  refine ⟨b, ?_, by omega, by rw [b2, a2], by rw [b3, a3], ?_⟩
  · simp only [block_body, ha, Option.bind_some]; exact hb
  · intro m
    rw [b4]
    by_cases c1 : i ≤ m ∧ m < i + 8
    · have c2 : i ≤ m ∧ m < i + 16 := by omega
      have c3 : i ≤ m + 8 ∧ m + 8 < i + 16 := by omega
      have c4 : m < i + 8 := by omega
      have c5 : m + 8 - i = m - i + 8 := by omega
      rw [if_pos c1, if_pos c2, a4, a4, if_pos c2, if_pos c3, c5]
      simp only [block_val, c4, if_true]
    · by_cases c2 : i + 8 ≤ m ∧ m < i + 16
      · have c3 : i ≤ m ∧ m < i + 16 := by omega
        have c4 : i ≤ m - 8 ∧ m - 8 < i + 16 := by omega
        have c5 : ¬ m < i + 8 := by omega
        have c6 : m - 8 - i = m - i - 8 := by omega
        rw [if_neg c1, if_pos c2, if_pos c3, a4, a4, if_pos c3, if_pos c4, c6]
        simp only [block_val, c5, if_false]
      · have c3 : ¬ (i ≤ m ∧ m < i + 16) := by omega
        rw [if_neg c1, if_neg c2, if_neg c3, a4, if_neg c3]

theorem stageA_val_congr (k1 k2 : Nat) (b1 b2 : List Nat) (i q : Nat)
    (hk : u8 (k1 : Int) = u8 (k2 : Int)) (hb : b1.getD (i + q) 0 = b2.getD (i + q) 0) :
    stageA_val k1 b1 i q = stageA_val k2 b2 i q := by
  unfold stageA_val; rw [hb]; unfold u8 at hk ⊢; omega

theorem block_val_congr (k1 k2 : Nat) (b1 b2 : List Nat) (i m : Nat)
    (hk : u8 (k1 : Int) = u8 (k2 : Int)) (hb : ∀ r, i ≤ r → b1.getD r 0 = b2.getD r 0) :
    block_val k1 b1 i m = block_val k2 b2 i m := by
  unfold block_val
  rw [stageA_val_congr k1 k2 b1 b2 i (m - i) hk (hb _ (by omega)),
    stageA_val_congr k1 k2 b1 b2 i (m - i + 8) hk (hb _ (by omega)),
    stageA_val_congr k1 k2 b1 b2 i (m - i - 8) hk (hb _ (by omega))]

theorem decrypt_loop_spec (buf : List Nat) (key : Nat) (hlen : buf.length % 16 = 0) :
    ∃ t, forLoop buf.length 0x10 block_body buf.length 0 ⟨buf, key, 0⟩ = some t ∧
      t.buffer.length = buf.length ∧ t.checksum = u16 (buf.sum : Nat) ∧
      ∀ m, m < buf.length → t.buffer.getD m 0 = plain_byte key buf m := by
  obtain ⟨t, k, ht, ⟨i1, i2, i3, i4, i5, i6⟩, hge, hk⟩ := forLoop_inv buf.length 0x10 block_body
    (fun i s => i % 16 = 0 ∧ s.buffer.length = buf.length ∧
      u8 (s.key : Int) = u8 ((key : Int) + i) ∧ s.checksum < 65536 ∧
      s.checksum = u16 ((buf.take i).sum : Nat) ∧
      ∀ m, s.buffer.getD m 0 = if m < i then plain_byte key buf m else buf.getD m 0)
    (by decide)
    (by
      rintro i ⟨sb, sk, sc⟩ hi ⟨i1, i2, i3, i4, i5, i6⟩
      simp only at i2 i3 i4 i5 i6
      obtain ⟨t, ht, t1, t2, t3, t4⟩ := block_body_spec i sb sk sc (by omega) i4
      refine ⟨t, ht, by omega, by omega, ?_, ?_, ?_, ?_⟩
      · rw [t2]; unfold u8 at i3 ⊢; push_cast; omega
      · rw [t3]; exact u16_lt _
      · rw [t3, i5, u16_add, List.take_add, List.sum_append]
        have : (List.take 16 (List.drop i sb)) = (List.take 16 (List.drop i buf)) := by
          apply List.ext_getElem?
          intro n
          simp only [List.getElem?_take, List.getElem?_drop]
          by_cases hn : n < 16
          · have := i6 (i + n)
            have c : ¬ i + n < i := by omega
            simp only [c, if_false, List.getD_eq_getElem?_getD] at this
            have l1 : i + n < sb.length := by omega
            have l2 : i + n < buf.length := by omega
            simp only [hn, if_true]
            rw [List.getElem?_eq_getElem l1, List.getElem?_eq_getElem l2] at this ⊢
            simpa using this
          · simp [hn]
        rw [this]; push_cast; rfl
      · intro m
        rw [t4]
        by_cases c1 : i ≤ m ∧ m < i + 16
        · have c2 : m < i + 16 := by omega
          have c3 : 16 * (m / 16) = i := by omega
          simp only [c1, c2, and_self, if_true, plain_byte, c3]
          apply block_val_congr
          · unfold u8 at i3 ⊢; push_cast; omega
          · intro r hr
            rw [i6]
            have : ¬ r < i := by omega
            simp only [this, if_false]
        · simp only [c1, if_false, i6]
          by_cases c2 : m < i
          · have : m < i + 16 := by omega
            simp only [c2, this, if_true]
          · have : ¬ m < i + 16 := by omega
            simp only [c2, this, if_false])
    buf.length 0 ⟨buf, key, 0⟩ (by omega)
    (by
      refine ⟨rfl, rfl, by simp, by simp, by simp [u16], ?_⟩
      intro m; simp)
  have hk16 : 0 + k * 16 = buf.length := by
    rcases hk with hk | hk
    · subst hk; omega
    · omega
  rw [hk16] at i5 i6
  refine ⟨t, ht, i2, ?_, ?_⟩
  · rw [i5, List.take_length]
  · intro m hm
    rw [i6]; simp only [hm, if_true]

theorem unmasked_lt (k : Nat) (c : List Nat) (m : Nat) : unmasked k c m < 256 := u8_lt _

theorem stageA_val_block (k : Nat) (c : List Nat) (m q : Nat) :
    stageA_val (k + 16 * (m / 16)) c (16 * (m / 16)) q = unmasked k c (16 * (m / 16) + q) := by
  unfold stageA_val unmasked; congr 1; push_cast; ring

theorem plain_byte_eq (k : Nat) (c : List Nat) (m : Nat) :
    plain_byte k c m =
      if m % 16 < 8 then unmasked k c m ^^^ u8 ((unmasked k c (m + 8) : Int) - unmasked k c m)
      else u8 ((unmasked k c m : Int) - unmasked k c (m - 8)) := by
  unfold plain_byte block_val
  simp only [stageA_val_block]
  by_cases h : m % 16 < 8
  · have c1 : m < 16 * (m / 16) + 8 := by omega
    have c2 : 16 * (m / 16) + (m - 16 * (m / 16)) = m := by omega
    have c3 : 16 * (m / 16) + (m - 16 * (m / 16) + 8) = m + 8 := by omega
    rw [if_pos c1, if_pos h, c2, c3]
    apply u8_of_lt
    exact Nat.xor_lt_two_pow (n := 8) (unmasked_lt _ _ _) (u8_lt _)
  · have c1 : ¬ m < 16 * (m / 16) + 8 := by omega
    have c2 : 16 * (m / 16) + (m - 16 * (m / 16)) = m := by omega
    have c3 : 16 * (m / 16) + (m - 16 * (m / 16) - 8) = m - 8 := by omega
    rw [if_neg c1, if_neg h, c2, c3]

theorem fcr3_decrypt_spec (buf : List Nat) (key : Nat) (hlen : buf.length % 16 = 0) :
    ∃ out, fcr3_decrypt buf buf.length key = some (buf.sum % 65536, out) ∧
      out.length = buf.length ∧ ∀ m, m < buf.length → out.getD m 0 = plain_byte key buf m := by
  obtain ⟨t, ht, h1, h2, h3⟩ := decrypt_loop_spec buf key hlen
  refine ⟨t.buffer, ?_, h1, h3⟩
  have e : u16 (buf.sum : Nat) = buf.sum % 65536 := by unfold u16; omega
  simp only [fcr3_decrypt, ht, Option.map_some', h2, e]

theorem checksum_loop_spec (seq : List Nat) :
    forLoop seq.length 1 fcr3_checksum_body seq.length 0 (seq, 0) =
      some (seq, u16 (0 - (seq.sum : Nat))) := by
  obtain ⟨t, ht, h1, h2⟩ := forLoop_inv_unit seq.length fcr3_checksum_body
    (fun i s => s.1 = seq ∧ s.2 = u16 (0 - ((seq.take i).sum : Nat)))
    (by
      rintro i ⟨b, c⟩ hi ⟨h1, h2⟩
      simp only at h1 h2
      subst h1
      refine ⟨(b, u16 ((c : Int) - b.getD i 0)), ?_, rfl, ?_⟩
      · simp [fcr3_checksum_body, load, List.getElem?_eq_getElem hi, List.getD_eq_getElem?_getD]
      · simp only [h2, sum_take_succ b i hi]
        unfold u16; push_cast; omega)
    (seq, 0) (by simp [u16])
  rw [ht]
  rw [List.take_length] at h2
  obtain ⟨t1, t2⟩ := t
  simp only at h1 h2
  rw [h1, h2]

theorem xor_cancel (a h : Nat) : a ^^^ h ^^^ h = a := by
  rw [Nat.xor_assoc, Nat.xor_self, Nat.xor_zero]

theorem spec_inverse_decrypt (k : Nat) (pl : List Nat) (hlen : pl.length % 16 = 0)
    (hb : ∀ x ∈ pl, x < 256) :
    ∃ ck d, fcr3_decrypt pl pl.length k = some (ck, d) ∧ spec_inverse k d = pl := by
  obtain ⟨d, hd, hl, hp⟩ := fcr3_decrypt_spec pl k hlen
  refine ⟨_, d, hd, ?_⟩
  apply List.ext_getElem
  · simp [spec_inverse, hl]
  · intro m h1 h2
    have hcm : pl.getD m 0 < 256 := by
      rw [List.getD_eq_getElem?_getD, List.getElem?_eq_getElem h2]
      exact hb _ (List.getElem_mem _)
    have hcm2 : pl.getD m 0 = pl[m] := by
      rw [List.getD_eq_getElem?_getD, List.getElem?_eq_getElem h2]; rfl
    have key : ∀ n, n < pl.length → n % 16 < 8 →
        d.getD n 0 ^^^ d.getD (n + 8) 0 = unmasked k pl n := by
      intro n hn hn8
      have hn2 : n + 8 < pl.length := by omega
      have e2 : (n + 8) % 16 = n % 16 + 8 := by omega
      rw [hp n hn, hp (n + 8) hn2, plain_byte_eq, plain_byte_eq, if_pos hn8, e2,
        if_neg (by omega), Nat.add_sub_cancel, xor_cancel]
    simp only [spec_inverse, List.getElem_map, List.getElem_range]
    rw [← hcm2]
    by_cases hm : m % 16 < 8
    · rw [if_pos hm, key m h2 hm]
      unfold unmasked u8 at *; omega
    · have e3 : (m - 8) % 16 < 8 := by omega
      rw [if_neg hm, key (m - 8) (by omega) e3, hp m h2, plain_byte_eq, if_neg hm]
      have := unmasked_lt k pl m
      have := unmasked_lt k pl (m - 8)
      have e4 : (u8 ((unmasked k pl m : Int) - unmasked k pl (m - 8)) + unmasked k pl (m - 8)) % 256
          = unmasked k pl m := by
        unfold u8; omega
      rw [e4]
      unfold unmasked u8 at *; omega

/-! ## The decode transform and the checksums -/

/-- C1: for a payload whose length is a multiple of 16 and any starting key
`k`, `fcr3_decrypt` returns and leaves the payload in closed form: in block `b`,
with `a m = ((k + 16*b + m) - original[16*b+m]) mod 256`, the final bytes are
`out[16*b+8+j] = (a (j+8) - a j) mod 256` and
`out[16*b+j] = a j XOR out[16*b+8+j]` for `j` in `0..7`; the key of a block is
the starting key advanced by one per byte already processed. -/
theorem fcr3_decrypt_closed_form (payload : List Nat) (k : Nat)
    (hlen : payload.length % 16 = 0) :
    ∃ ck out, fcr3_decrypt payload payload.length k = some (ck, out) ∧
      out.length = payload.length ∧
      ∀ b : Nat,
        let a : Nat → Nat := fun m =>
          (((k : Int) + 16 * b + m - payload.getD (16 * b + m) 0) % 256).toNat
        ∀ j, 16 * b + 16 ≤ payload.length → j < 8 →
          out.getD (16 * b + 8 + j) 0 = (((a (j + 8) : Int) - a j) % 256).toNat ∧
          out.getD (16 * b + j) 0 = a j ^^^ out.getD (16 * b + 8 + j) 0 := by
  obtain ⟨out, hd, hl, hp⟩ := fcr3_decrypt_spec payload k hlen
  refine ⟨_, out, hd, hl, ?_⟩
  intro b a j hb hj
  have e1 : (16 * b + 8 + j) % 16 = 8 + j := by omega
  have e2 : (16 * b + j) % 16 = j := by omega
  have e3 : 16 * b + 8 + j - 8 = 16 * b + j := by omega
  have e4 : 16 * b + j + 8 = 16 * b + 8 + j := by omega
  have a1 : unmasked k payload (16 * b + j) = a j := by
    simp only [unmasked, u8, a]; congr 2; push_cast; ring
  have a2 : unmasked k payload (16 * b + 8 + j) = a (j + 8) := by
    simp only [unmasked, u8, a]
    have : 16 * b + 8 + j = 16 * b + (j + 8) := by omega
    rw [this]; congr 2; push_cast; ring
  have h8 : out.getD (16 * b + 8 + j) 0 = (((a (j + 8) : Int) - a j) % 256).toNat := by
    rw [hp _ (by omega), plain_byte_eq, e1, if_neg (by omega), e3, a1, a2]; rfl
  refine ⟨h8, ?_⟩
  rw [hp _ (by omega), plain_byte_eq, e2, if_pos hj, e4, a1, a2, h8]; rfl

/-- A witness for C1: the closed form at the sample payload with key `0x42`,
where every `a m` is `0x41`. -/
theorem fcr3_decrypt_closed_form_witness :
    sample_payload.length % 16 = 0 ∧
      ∃ ck out, fcr3_decrypt sample_payload sample_payload.length 0x42 = some (ck, out) ∧
        out.length = sample_payload.length ∧ out.getD 8 0 = 0 ∧ out.getD 0 0 = 0x41 := by
  refine ⟨by decide, ?_⟩
  obtain ⟨ck, out, h, hl, hf⟩ := fcr3_decrypt_closed_form sample_payload 0x42 (by decide)
  obtain ⟨h8, h0⟩ := hf 0 0 (by decide) (by decide)
  have e8 : out.getD 8 0 = 0 := by rw [show 8 = 16 * 0 + 8 + 0 from rfl, h8]; decide
  refine ⟨ck, out, h, hl, e8, ?_⟩
  rw [show (0 : Nat) = 16 * 0 + 0 from rfl, h0]
  rw [show 16 * 0 + 8 + 0 = 8 from rfl, e8]
  decide

/-- C2: for a payload whose length is a multiple of 16 and any starting key,
the value `fcr3_decrypt` returns is the sum of the original bytes modulo 65536;
it does not depend on the key. -/
theorem fcr3_decrypt_returns_sum (payload : List Nat) (hlen : payload.length % 16 = 0) :
    (∀ k, ∃ out, fcr3_decrypt payload payload.length k = some (payload.sum % 65536, out)) ∧
      ∀ k1 k2, (fcr3_decrypt payload payload.length k1).map Prod.fst =
        (fcr3_decrypt payload payload.length k2).map Prod.fst := by
  have h : ∀ k, ∃ out,
      fcr3_decrypt payload payload.length k = some (payload.sum % 65536, out) := by
    intro k
    obtain ⟨out, hd, _⟩ := fcr3_decrypt_spec payload k hlen
    exact ⟨out, hd⟩
  refine ⟨h, ?_⟩
  intro k1 k2
  obtain ⟨o1, h1⟩ := h k1
  obtain ⟨o2, h2⟩ := h k2
  rw [h1, h2]; rfl

/-- A witness for C2: the sample payload sums to 136 under two keys. -/
theorem fcr3_decrypt_returns_sum_witness :
    sample_payload.length % 16 = 0 ∧
      (fcr3_decrypt sample_payload sample_payload.length 0x42).map Prod.fst =
        (fcr3_decrypt sample_payload sample_payload.length 7).map Prod.fst :=
  ⟨by decide, (fcr3_decrypt_returns_sum sample_payload (by decide)).2 0x42 7⟩

/-- C3: for every byte sequence, the empty one included, `fcr3_checksum` returns
`(0 - sum of the bytes) mod 65536` and leaves the sequence unchanged. -/
theorem fcr3_checksum_spec (seq : List Nat) :
    fcr3_checksum seq seq.length = some (((0 - (seq.sum : Int)) % 65536).toNat, seq) := by
  simp only [fcr3_checksum, checksum_loop_spec, Option.map_some', u16]

/-- C4: round trip.  For a payload of bytes whose length is a multiple of 16,
the inverse transform applied to the decoded payload with the same starting
key gives the payload back; so decoding with a fixed key is injective on
payloads of one length. -/
theorem fcr3_decrypt_round_trip (k : Nat) (ct : List Nat) (hlen : ct.length % 16 = 0)
    (hbytes : ∀ x ∈ ct, x < 256) :
    (∃ ck d, fcr3_decrypt ct ct.length k = some (ck, d) ∧ spec_inverse k d = ct) ∧
      ∀ ct2 : List Nat, ct2.length = ct.length → (∀ x ∈ ct2, x < 256) →
        (fcr3_decrypt ct2 ct2.length k).map Prod.snd =
          (fcr3_decrypt ct ct.length k).map Prod.snd → ct2 = ct := by
  refine ⟨spec_inverse_decrypt k ct hlen hbytes, ?_⟩
  intro ct2 hl2 hb2 heq
  obtain ⟨c1, d1, h1, r1⟩ := spec_inverse_decrypt k ct hlen hbytes
  obtain ⟨c2, d2, h2, r2⟩ := spec_inverse_decrypt k ct2 (by omega) hb2
  rw [h1, h2] at heq
  simp only [Option.map_some', Option.some.injEq] at heq
  rw [← r1, ← r2, heq]

/-- A witness for C4: the round trip of the sample payload under key `0x42`. -/
theorem fcr3_decrypt_round_trip_witness :
    sample_payload.length % 16 = 0 ∧ (∀ x ∈ sample_payload, x < 256) ∧
      ∃ ck d, fcr3_decrypt sample_payload sample_payload.length 0x42 = some (ck, d) ∧
        spec_inverse 0x42 d = sample_payload :=
  ⟨by decide, by decide,
    (fcr3_decrypt_round_trip 0x42 sample_payload (by decide) (by decide)).1⟩

/-! ## The run of `main` -/

theorem load_of_lt (buf : List Nat) (p : Nat) (h : p < buf.length) :
    load buf p = some (buf.getD p 0) := by
  simp [load, List.getD_eq_getElem?_getD, List.getElem?_eq_getElem h]

theorem store_of_lt (buf : List Nat) (p v : Nat) (h : p < buf.length) :
    store buf p v = some (buf.set p v) := by
  simp [store, h]

theorem store_of_ge (buf : List Nat) (p v : Nat) (h : buf.length ≤ p) :
    store buf p v = none := by
  have : ¬ p < buf.length := by omega
  simp [store, this]

theorem getw_of_lt (mem : List Nat) (p : Nat) (h : p + 1 < mem.length) :
    MEM_GETW_LE mem p = some ((mem.getD (p + 1) 0 <<< 8) ||| mem.getD p 0) := by
  simp only [MEM_GETW_LE, load_of_lt mem (p + 1) h, load_of_lt mem p (by omega)]
  rfl

theorem putw_of_lt (mem : List Nat) (p v : Nat) (h : p + 1 < mem.length) :
    MEM_PUTW_LE mem p v = some ((mem.set p (v &&& 0xff)).set (p + 1) ((v >>> 8) &&& 0xff)) := by
  simp only [MEM_PUTW_LE, store_of_lt mem p _ (by omega)]
  exact store_of_lt _ _ _ (by simpa using h)

theorem copy_word_of_lt (dst src : List Nat) (k m : Nat) (hs : 2 * m + 1 < src.length)
    (hd : 2 * k + 1 < dst.length) :
    copy_word dst k src m =
      some ((dst.set (2 * k) (src.getD (2 * m) 0)).set (2 * k + 1) (src.getD (2 * m + 1) 0)) := by
  simp only [copy_word, load_of_lt src (2 * m) (by omega), load_of_lt src (2 * m + 1) hs,
    store_of_lt dst (2 * k) _ (by omega)]
  exact store_of_lt _ _ _ (by simpa using hd)

theorem copy_word_of_ge (dst src : List Nat) (k m : Nat) (hd : dst.length ≤ 2 * k + 1) :
    copy_word dst k src m = none := by
  unfold copy_word
  cases h0 : load src (2 * m) with
  | none => rfl
  | some b0 =>
    cases h1 : load src (2 * m + 1) with
    | none => rfl
    | some b1 =>
      by_cases hk : 2 * k < dst.length
      · simp only [Option.bind_eq_bind, Option.some_bind, store_of_lt dst (2 * k) _ hk]
        exact store_of_ge _ _ _ (by simpa using hd)
      · simp only [Option.bind_eq_bind, Option.some_bind, store_of_ge dst (2 * k) _ (by omega)]
        rfl

theorem patched_length (buffer fh : List Nat) (n : Nat) :
    (patched buffer fh n).length = buffer.length := by
  simp [patched]

theorem patch_steps (b fh : List Nat) (n : Nat) (hfh : fh.length = 16) (hb : b.length = n) :
    (do
      let b ← defined (copy_word b e_sp fh f_sp)
      let b ← defined (copy_word b e_ss fh f_ss)
      let b ← defined (copy_word b e_ip fh f_ip)
      let b ← defined (copy_word b e_cs fh f_cs)
      let (data_length, header_length) := size_fields n
      let b ← defined (MEM_PUTW_LE b (2 * e_cp) data_length)
      let b ← defined (MEM_PUTW_LE b (2 * e_cblp) header_length)
      pure (b.take n) : Except Failure (List Nat)) =
    if 24 ≤ n then .ok (patched b fh n) else .error .undefinedBehaviour := by
  simp only [e_sp, e_ss, e_ip, e_cs, f_sp, f_ss, f_ip, f_cs, e_cp, e_cblp]
  by_cases h24 : 24 ≤ n
  · rw [if_pos h24]
    rw [copy_word_of_lt b fh 8 0 (by omega) (by omega)]
    simp only [defined, bind, Except.bind]
    rw [copy_word_of_lt _ fh 7 1 (by omega) (by simp; omega)]
    simp only [defined, bind, Except.bind]
    rw [copy_word_of_lt _ fh 0xa 2 (by omega) (by simp; omega)]
    simp only [defined, bind, Except.bind]
    rw [copy_word_of_lt _ fh 0xb 3 (by omega) (by simp; omega)]
    simp only [defined, bind, Except.bind]
    rw [putw_of_lt _ _ _ (by simp; omega)]
    simp only [defined, bind, Except.bind]
    rw [putw_of_lt _ _ _ (by simp; omega)]
    simp only [defined, bind, Except.bind, pure, Except.pure]
    congr 1
    rw [List.take_of_length_le (by simp; omega)]
    rfl
  · rw [if_neg h24]
    by_cases h18 : 18 ≤ n
    · rw [copy_word_of_lt b fh 8 0 (by omega) (by omega)]
      simp only [defined, bind, Except.bind]
      rw [copy_word_of_lt _ fh 7 1 (by omega) (by simp; omega)]
      simp only [defined, bind, Except.bind]
      by_cases h22 : 22 ≤ n
      · rw [copy_word_of_lt _ fh 0xa 2 (by omega) (by simp; omega)]
        simp only [defined, bind, Except.bind]
        rw [copy_word_of_ge _ fh 0xb 3 (by simp; omega)]
      · rw [copy_word_of_ge _ fh 0xa 2 (by simp; omega)]
    · rw [copy_word_of_ge b fh 8 0 (by omega)]
      rfl

theorem getb_of_lt (mem : List Nat) (p : Nat) (h : p < mem.length) :
    MEM_GETB mem p = some (mem.getD p 0) := load_of_lt mem p h

theorem main_decode_eq (l : Loaded) (hfh : l.fcrypt3_header.length = 16)
    (hbuf : l.buffer.length = l.decoder_start) (hle : l.data_length ≤ l.decoder_start)
    (h16 : l.data_length % 16 = 0) :
    ∃ csum_sub csum_add key decoded,
      MEM_GETW_LE l.fcrypt3_header (2 * f_csum_sub) = some csum_sub ∧
      MEM_GETW_LE l.fcrypt3_header (2 * f_csum_add) = some csum_add ∧
      MEM_GETB l.fcrypt3_header (2 * f_key) = some key ∧
      fcr3_decrypt (l.buffer.drop (l.decoder_start - l.data_length)) l.data_length key =
        some ((l.buffer.drop (l.decoder_start - l.data_length)).sum % 65536, decoded) ∧
      decoded.length = l.data_length ∧
      (∀ m, m < l.data_length → decoded.getD m 0 =
        plain_byte key (l.buffer.drop (l.decoder_start - l.data_length)) m) ∧
      main_decode l =
        if u16 (0 - ((l.buffer.drop (l.decoder_start - l.data_length)).sum : Nat)) ≠ csum_sub then
          .error .fileCorrupted
        else if (l.buffer.drop (l.decoder_start - l.data_length)).sum % 65536 ≠ csum_add then
          .error .fileCorrupted
        else if 24 ≤ l.decoder_start then
          .ok (patched (l.buffer.take (l.decoder_start - l.data_length) ++ decoded)
            l.fcrypt3_header l.decoder_start)
        else .error .undefinedBehaviour := by
  have hpl : (l.buffer.drop (l.decoder_start - l.data_length)).length = l.data_length := by
    simp; omega
  obtain ⟨decoded, hd, hdl, hdp⟩ := fcr3_decrypt_spec
    (l.buffer.drop (l.decoder_start - l.data_length))
    (l.fcrypt3_header.getD (2 * f_key) 0) (by omega)
  rw [hpl] at hd hdl hdp
  have hck := checksum_loop_spec (l.buffer.drop (l.decoder_start - l.data_length))
  rw [hpl] at hck
  have g1 := getw_of_lt l.fcrypt3_header (2 * f_csum_sub) (by simp [f_csum_sub]; omega)
  have g2 := getw_of_lt l.fcrypt3_header (2 * f_csum_add) (by simp [f_csum_add]; omega)
  have g3 := getb_of_lt l.fcrypt3_header (2 * f_key) (by simp [f_key]; omega)
  refine ⟨_, _, _, decoded, g1, g2, g3, hd, hdl, hdp, ?_⟩
  unfold main_decode
  simp only [fcr3_checksum, hck, Option.map_some', g1, g2, g3, hd, defined, bind, Except.bind]
  split
  · rfl
  · split
    · rfl
    · exact patch_steps _ _ _ hfh (by simp [hdl, hbuf]; omega)

theorem shl4 (x : Nat) : x <<< 4 = x * 16 := by simp [Nat.shiftLeft_eq]

theorem defined_ok {α : Type} (o : Option α) (a : α) : defined o = .ok a ↔ o = some a := by
  cases o <;> simp [defined]

theorem fread_ok (file : List Nat) (pos n : Nat) (r : List Nat) (h : fread file pos n = .ok r) :
    pos + n ≤ file.length ∧ r = (file.drop pos).take n ∧ r.length = n := by
  unfold fread at h
  split at h
  · rename_i hle
    simp only [Except.ok.injEq] at h
    subst h
    refine ⟨hle, rfl, ?_⟩
    simp; omega
  · simp at h

/-- What a successful load went through: every read and both validations. -/
theorem main_load_inv (be : Bool) (file : List Nat) (l : Loaded)
    (h : main_load be file = .ok l) :
    ∃ hdr magic cs cparhdr cpar fcs fip,
      fread file 0 0x20 = .ok hdr ∧ word_host be hdr e_magic = some magic ∧
      (magic = 0x5a4d ∨ magic = 0x4d5a) ∧
      MEM_GETW_LE hdr (2 * e_cs) = some cs ∧
      MEM_GETW_LE hdr (2 * e_cparhdr) = some cparhdr ∧
      fread file (cparhdr * 16 + cs * 16) 0x10 = .ok l.fcrypt3_header ∧
      MEM_GETW_LE l.fcrypt3_header (2 * f_cpar) = some cpar ∧
      MEM_GETW_LE l.fcrypt3_header (2 * f_cs) = some fcs ∧
      MEM_GETW_LE l.fcrypt3_header (2 * f_ip) = some fip ∧
      ¬ (cpar * 16 = 0 ∨ cs * 16 < cpar * 16 ∨ cpar * 16 < fcs * 16 + fip) ∧
      l.decoder_start = cs * 16 + cparhdr * 16 ∧ l.data_length = cpar * 16 ∧
      fread file 0 l.decoder_start = .ok l.buffer := by
  unfold main_load at h
  simp only [bind, Except.bind, pure, Except.pure, shl4] at h
  split at h
  · simp at h
  rename_i hdr hhdr
  split at h
  · simp at h
  rename_i magic hmagic
  split at h
  · simp at h
  rename_i hsig
  split at h
  · simp at h
  rename_i cs hcs
  split at h
  · simp at h
  rename_i cparhdr hcparhdr
  split at h
  · simp at h
  rename_i fh hfh
  split at h
  · simp at h
  rename_i cpar hcpar
  split at h
  · simp at h
  rename_i fcs hfcs
  split at h
  · simp at h
  rename_i fip hfip
  split at h
  · simp at h
  rename_i hvalid
  split at h
  · simp at h
  rename_i buffer hbuffer
  simp only [Except.ok.injEq] at h
  subst h
  rw [defined_ok] at hmagic hcs hcparhdr hcpar hfcs hfip
  refine ⟨hdr, magic, cs, cparhdr, cpar, fcs, fip, hhdr, hmagic, ?_, hcs, hcparhdr, hfh, hcpar,
    hfcs, hfip, hvalid, rfl, rfl, hbuffer⟩
  by_cases h1 : magic = 0x5a4d
  · exact Or.inl h1
  · by_cases h2 : magic = 0x4d5a
    · exact Or.inr h2
    · exact absurd ⟨h1, h2⟩ hsig

theorem main_load_ok (be : Bool) (file : List Nat) (l : Loaded)
    (h : main_load be file = .ok l) :
    l.fcrypt3_header.length = 16 ∧ l.buffer.length = l.decoder_start ∧
      l.data_length ≤ l.decoder_start ∧ l.data_length % 16 = 0 ∧ 0 < l.data_length ∧
      l.decoder_start + 16 ≤ file.length ∧ l.buffer = file.take l.decoder_start ∧
      l.fcrypt3_header = (file.drop l.decoder_start).take 16 := by
  obtain ⟨hdr, magic, cs, cparhdr, cpar, fcs, fip, _, _, _, _, _, hfh, _, _, _, hv, hds, hdl, hb⟩ :=
    main_load_inv be file l h
  obtain ⟨f1, f2, f3⟩ := fread_ok _ _ _ _ hfh
  obtain ⟨b1, b2, b3⟩ := fread_ok _ _ _ _ hb
  refine ⟨f3, b3, by omega, by omega, by omega, by omega, by simpa using b2, ?_⟩
  rw [f2, hds, Nat.add_comm]

/-- The load stage once both headers are read and the signature is accepted:
the header validation alone decides between `badHeader` and a loaded image. -/
theorem main_load_eq (be : Bool) (file hdr fh : List Nat) (magic cs cparhdr cpar fcs fip : Nat)
    (hhdr : fread file 0 0x20 = .ok hdr)
    (hmagic : word_host be hdr e_magic = some magic)
    (hsig : magic = 0x5a4d ∨ magic = 0x4d5a)
    (hcs : MEM_GETW_LE hdr (2 * e_cs) = some cs)
    (hcparhdr : MEM_GETW_LE hdr (2 * e_cparhdr) = some cparhdr)
    (hfh : fread file (cparhdr * 16 + cs * 16) 0x10 = .ok fh)
    (hcpar : MEM_GETW_LE fh (2 * f_cpar) = some cpar)
    (hfcs : MEM_GETW_LE fh (2 * f_cs) = some fcs)
    (hfip : MEM_GETW_LE fh (2 * f_ip) = some fip) :
    main_load be file =
      if cpar * 16 = 0 ∨ cs * 16 < cpar * 16 ∨ cpar * 16 < fcs * 16 + fip then
        .error .badHeader
      else
        .ok { fcrypt3_header := fh, buffer := file.take (cs * 16 + cparhdr * 16),
              decoder_start := cs * 16 + cparhdr * 16, data_length := cpar * 16 } := by
  have hs : ¬ (magic ≠ 0x5a4d ∧ magic ≠ 0x4d5a) := by
    rcases hsig with h | h <;> simp [h]
  obtain ⟨f1, _, _⟩ := fread_ok _ _ _ _ hfh
  have hb : fread file 0 (cs * 16 + cparhdr * 16) = .ok (file.take (cs * 16 + cparhdr * 16)) := by
    have : cs * 16 + cparhdr * 16 ≤ file.length := by omega
    simp [fread, this]
  unfold main_load
  simp only [bind, Except.bind, pure, Except.pure, shl4, hhdr, hmagic, defined, hs, if_false,
    hcs, hcparhdr, hfh, hcpar, hfcs, hfip, hb]

/-- C5: once both headers are read and the signature is accepted, the run
fails with `Bad FCrypt3 header!` if and only if `payload_length = 0`, or
`decoder_start < payload_length`, or `payload_length < cs*16 + ip` of the
protector header (no 16-bit wraparound), where `decoder_start = e_cs*16` and
`payload_length = cpar*16`.  With a payload-size field of 0 the run ends in the
load stage, before the checksum and the decode are reached. -/
theorem bad_header_iff (be : Bool) (file hdr fh : List Nat)
    (magic cs cparhdr cpar fcs fip : Nat)
    (hhdr : fread file 0 0x20 = .ok hdr)
    (hmagic : word_host be hdr e_magic = some magic)
    (hsig : magic = 0x5a4d ∨ magic = 0x4d5a)
    (hcs : MEM_GETW_LE hdr (2 * e_cs) = some cs)
    (hcparhdr : MEM_GETW_LE hdr (2 * e_cparhdr) = some cparhdr)
    (hfh : fread file (cparhdr * 16 + cs * 16) 0x10 = .ok fh)
    (hcpar : MEM_GETW_LE fh (2 * f_cpar) = some cpar)
    (hfcs : MEM_GETW_LE fh (2 * f_cs) = some fcs)
    (hfip : MEM_GETW_LE fh (2 * f_ip) = some fip) :
    (main be file = .error .badHeader ↔
      cpar * 16 = 0 ∨ cs * 16 < cpar * 16 ∨ cpar * 16 < fcs * 16 + fip) ∧
    (cpar = 0 → main_load be file = .error .badHeader ∧ main be file = .error .badHeader) := by
  have hl := main_load_eq be file hdr fh magic cs cparhdr cpar fcs fip hhdr hmagic hsig hcs
    hcparhdr hfh hcpar hfcs hfip
  have hiff : main be file = .error .badHeader ↔
      cpar * 16 = 0 ∨ cs * 16 < cpar * 16 ∨ cpar * 16 < fcs * 16 + fip := by
    by_cases hv : cpar * 16 = 0 ∨ cs * 16 < cpar * 16 ∨ cpar * 16 < fcs * 16 + fip
    · rw [if_pos hv] at hl
      simp only [main, hl, bind, Except.bind, hv]
    · rw [if_neg hv] at hl
      obtain ⟨w1, w2, w3, w4, _⟩ := main_load_ok be file _ hl
      obtain ⟨a, b, c, d, _, _, _, _, _, _, hm⟩ := main_decode_eq _ w1 w2 w3 w4
      simp only [main, hl, bind, Except.bind, hv, iff_false]
      rw [hm]
      split
      · simp
      · split
        · simp
        · split <;> simp
  refine ⟨hiff, ?_⟩
  intro h0
  have hv : cpar * 16 = 0 ∨ cs * 16 < cpar * 16 ∨ cpar * 16 < fcs * 16 + fip := by
    left; omega
  rw [if_pos hv] at hl
  exact ⟨hl, hiff.2 hv⟩

/-- A witness for C5: the sample file passes the header validation. -/
theorem bad_header_iff_witness :
    (main false sample_file = .error .badHeader ↔
      1 * 16 = 0 ∨ 1 * 16 < 1 * 16 ∨ 1 * 16 < 0 * 16 + 3) :=
  (bad_header_iff false sample_file (sample_file.take 32) ((sample_file.drop 48).take 16)
    0x5a4d 1 2 1 0 3 (by rfl) (by rfl) (by decide) (by rfl) (by rfl) (by rfl) (by rfl)
    (by rfl) (by rfl)).1

theorem sum_set (l : List Nat) (i v : Nat) (h : i < l.length) :
    (l.set i v).sum + l.getD i 0 = l.sum + v := by
  induction l generalizing i with
  | nil => simp at h
  | cons x xs ih =>
    cases i with
    | zero => simp; omega
    | succ n =>
      have := ih n (by simpa using h)
      simp only [List.set_cons_succ, List.sum_cons, List.getD_cons_succ]
      omega

theorem main_eq_decode (be : Bool) (file : List Nat) (l : Loaded)
    (h : main_load be file = .ok l) : main be file = main_decode l := by
  simp only [main, h, bind, Except.bind]

/-- The first gate alone: a subtractive checksum that differs from the stored
word ends the run with `File corrupted!`. -/
theorem main_decode_sub_gate (l : Loaded)
    (hbuf : l.buffer.length = l.decoder_start) (hle : l.data_length ≤ l.decoder_start)
    (stored : Nat) (hst : MEM_GETW_LE l.fcrypt3_header (2 * f_csum_sub) = some stored)
    (hne : u16 (0 - ((l.buffer.drop (l.decoder_start - l.data_length)).sum : Nat)) ≠ stored) :
    main_decode l = .error .fileCorrupted := by
  have hpl : (l.buffer.drop (l.decoder_start - l.data_length)).length = l.data_length := by
    simp; omega
  have hck := checksum_loop_spec (l.buffer.drop (l.decoder_start - l.data_length))
  rw [hpl] at hck
  unfold main_decode
  simp only [fcr3_checksum, hck, Option.map_some', hst, defined, bind, Except.bind]
  rw [if_pos hne]

/-- C7: replacing one byte of a payload by a different byte value changes the
result of `fcr3_checksum`; so when the original payload matches the stored
subtractive word, a run on the corrupted payload ends with `File corrupted!`. -/
theorem single_byte_corruption (p : List Nat) (i v : Nat) (hp : ∀ x ∈ p, x < 256)
    (hi : i < p.length) (hv : v < 256) (hne : v ≠ p.getD i 0) :
    (∃ c1 c2, fcr3_checksum p p.length = some (c1, p) ∧
      fcr3_checksum (p.set i v) (p.set i v).length = some (c2, p.set i v) ∧ c1 ≠ c2) ∧
    ∀ l : Loaded, l.buffer.length = l.decoder_start →
      l.data_length ≤ l.decoder_start →
      l.buffer.drop (l.decoder_start - l.data_length) = p.set i v →
      (fcr3_checksum p p.length).map Prod.fst =
        MEM_GETW_LE l.fcrypt3_header (2 * f_csum_sub) →
      main_decode l = .error .fileCorrupted := by
  have hpi : p.getD i 0 < 256 := by
    rw [List.getD_eq_getElem?_getD, List.getElem?_eq_getElem hi]
    exact hp _ (List.getElem_mem _)
  have hs := sum_set p i v hi
  have key : u16 (0 - (p.sum : Nat)) ≠ u16 (0 - ((p.set i v).sum : Nat)) := by
    unfold u16; omega
  refine ⟨⟨_, _, ?_, ?_, key⟩, ?_⟩
  · simp only [fcr3_checksum, checksum_loop_spec, Option.map_some']
  · simp only [fcr3_checksum, checksum_loop_spec, Option.map_some']
  · intro l hbuf hle hpay hst
    simp only [fcr3_checksum, checksum_loop_spec, Option.map_some'] at hst
    apply main_decode_sub_gate l hbuf hle _ hst.symm
    rw [hpay]
    exact fun h => key h.symm

/-- A witness for C7: the first byte of the sample payload replaced by 2. -/
theorem single_byte_corruption_witness :
    (∀ x ∈ sample_payload, x < 256) ∧ 0 < sample_payload.length ∧ 2 < 256 ∧
    2 ≠ sample_payload.getD 0 0 ∧
    ∃ c1 c2, fcr3_checksum sample_payload sample_payload.length = some (c1, sample_payload) ∧
      fcr3_checksum (sample_payload.set 0 2) (sample_payload.set 0 2).length =
        some (c2, sample_payload.set 0 2) ∧ c1 ≠ c2 :=
  ⟨by decide, by decide, by decide, by decide,
    (single_byte_corruption sample_payload 0 2 (by decide) (by decide) (by decide)
      (by decide)).1⟩

/-- C8 fails as stated: two distinct payloads of 16 bytes with the same
subtractive checksum on which `fcr3_decrypt` returns the same additive checksum. -/
theorem independent_checksums_counterexample :
    sample_payload ≠ swapped_payload ∧ sample_payload.length = swapped_payload.length ∧
    sample_payload.length % 16 = 0 ∧
    (fcr3_checksum sample_payload sample_payload.length).map Prod.fst = some 65400 ∧
    (fcr3_checksum swapped_payload swapped_payload.length).map Prod.fst = some 65400 ∧
    (fcr3_decrypt sample_payload sample_payload.length 0x42).map Prod.fst = some 136 ∧
    (fcr3_decrypt swapped_payload swapped_payload.length 0x42).map Prod.fst = some 136 :=
  ⟨by decide, by decide, by decide, by decide, by decide, by decide, by decide⟩

/-- C8, amended: two payloads of one length (a multiple of 16) have the same
subtractive checksum exactly when `fcr3_decrypt` returns the same additive
checksum on them; a corruption that passes the first gate passes the second. -/
theorem checksums_agree (p q : List Nat) (k : Nat) (hlen : p.length = q.length)
    (h16 : p.length % 16 = 0) :
    (fcr3_checksum p p.length).map Prod.fst = (fcr3_checksum q q.length).map Prod.fst ↔
      (fcr3_decrypt p p.length k).map Prod.fst = (fcr3_decrypt q q.length k).map Prod.fst := by
  obtain ⟨o1, h1, _⟩ := fcr3_decrypt_spec p k h16
  obtain ⟨o2, h2, _⟩ := fcr3_decrypt_spec q k (by omega)
  simp only [fcr3_checksum, checksum_loop_spec, Option.map_some', h1, h2, Option.some.injEq]
  unfold u16; omega

/-- A witness for C8, amended: the sample payload and its swapped copy. -/
theorem checksums_agree_witness :
    sample_payload.length = swapped_payload.length ∧ sample_payload.length % 16 = 0 ∧
    ((fcr3_checksum sample_payload sample_payload.length).map Prod.fst =
        (fcr3_checksum swapped_payload swapped_payload.length).map Prod.fst ↔
      (fcr3_decrypt sample_payload sample_payload.length 0x42).map Prod.fst =
        (fcr3_decrypt swapped_payload swapped_payload.length 0x42).map Prod.fst) :=
  ⟨by decide, by decide, checksums_agree sample_payload swapped_payload 0x42 (by decide) (by decide)⟩

theorem and_ff (x : Nat) : x &&& 0xff = x % 256 := Nat.and_pow_two_sub_one_eq_mod x 8

theorem shr8 (x : Nat) : x >>> 8 = x / 256 := by simp [Nat.shiftRight_eq_div_pow]

theorem patched_bytes (b fh : List Nat) (n : Nat) (hb : b.length = n) (h24 : 24 ≤ n) :
    (patched b fh n)[16]? = some (fh.getD 0 0) ∧ (patched b fh n)[17]? = some (fh.getD 1 0) ∧
    (patched b fh n)[14]? = some (fh.getD 2 0) ∧ (patched b fh n)[15]? = some (fh.getD 3 0) ∧
    (patched b fh n)[20]? = some (fh.getD 4 0) ∧ (patched b fh n)[21]? = some (fh.getD 5 0) ∧
    (patched b fh n)[22]? = some (fh.getD 6 0) ∧ (patched b fh n)[23]? = some (fh.getD 7 0) ∧
    (patched b fh n)[4]? = some ((size_fields n).1 % 256) ∧
    (patched b fh n)[5]? = some ((size_fields n).1 / 256 % 256) ∧
    (patched b fh n)[2]? = some ((size_fields n).2 % 256) ∧
    (patched b fh n)[3]? = some ((size_fields n).2 / 256 % 256) := by
  have l16 : 16 < b.length := by omega
  have l17 : 17 < b.length := by omega
  have l14 : 14 < b.length := by omega
  have l15 : 15 < b.length := by omega
  have l20 : 20 < b.length := by omega
  have l21 : 21 < b.length := by omega
  have l22 : 22 < b.length := by omega
  have l23 : 23 < b.length := by omega
  have l4 : 4 < b.length := by omega
  have l5 : 5 < b.length := by omega
  have l2 : 2 < b.length := by omega
  have l3 : 3 < b.length := by omega
  simp [patched, List.getElem?_set, and_ff, shr8, l16, l17, l14, l15, l20, l21, l22, l23, l4,
    l5, l2, l3]

/-- The outcome of a run whose load stage succeeded, by its two gates. -/
theorem main_outcome (be : Bool) (file : List Nat) (l : Loaded)
    (h : main_load be file = .ok l) :
    ∃ csum_sub csum_add key decoded,
      MEM_GETW_LE l.fcrypt3_header (2 * f_csum_sub) = some csum_sub ∧
      MEM_GETW_LE l.fcrypt3_header (2 * f_csum_add) = some csum_add ∧
      MEM_GETB l.fcrypt3_header (2 * f_key) = some key ∧
      fcr3_decrypt (l.buffer.drop (l.decoder_start - l.data_length)) l.data_length key =
        some ((l.buffer.drop (l.decoder_start - l.data_length)).sum % 65536, decoded) ∧
      decoded.length = l.data_length ∧
      (∀ m, m < l.data_length → decoded.getD m 0 =
        plain_byte key (l.buffer.drop (l.decoder_start - l.data_length)) m) ∧
      main be file =
        if u16 (0 - ((l.buffer.drop (l.decoder_start - l.data_length)).sum : Nat)) ≠ csum_sub then
          .error .fileCorrupted
        else if (l.buffer.drop (l.decoder_start - l.data_length)).sum % 65536 ≠ csum_add then
          .error .fileCorrupted
        else if 24 ≤ l.decoder_start then
          .ok (patched (l.buffer.take (l.decoder_start - l.data_length) ++ decoded)
            l.fcrypt3_header l.decoder_start)
        else .error .undefinedBehaviour := by
  obtain ⟨w1, w2, w3, w4, _⟩ := main_load_ok be file l h
  rw [main_eq_decode be file l h]
  exact main_decode_eq l w1 w2 w3 w4

/-- A successful run: the image loaded, at least 24 bytes long, and the output
is the patched image. -/
theorem main_ok_inv (be : Bool) (file out : List Nat) (h : main be file = .ok out) :
    ∃ l decoded, main_load be file = .ok l ∧ 24 ≤ l.decoder_start ∧
      decoded.length = l.data_length ∧
      out = patched (l.buffer.take (l.decoder_start - l.data_length) ++ decoded)
        l.fcrypt3_header l.decoder_start ∧ out.length = l.decoder_start := by
  cases hl : main_load be file with
  | error e => simp [main, hl, bind, Except.bind] at h
  | ok l =>
    obtain ⟨w1, w2, w3, w4, _⟩ := main_load_ok be file l hl
    obtain ⟨a, b, c, decoded, _, _, _, _, hdl, _, hm⟩ := main_outcome be file l hl
    rw [hm] at h
    split at h
    · simp at h
    · split at h
      · simp at h
      · split at h
        · rename_i h24
          simp only [Except.ok.injEq] at h
          refine ⟨l, decoded, rfl, h24, hdl, h.symm, ?_⟩
          rw [← h, patched_length]
          simp [hdl, w2]; omega
        · simp at h

/-- C6 at the input `short_image`: both headers validate, the image is 16 bytes
long, both integrity gates pass against the stored words, and the run still has
no output: the patch of lines 166-169 stores past the end of the buffer. -/
theorem gates_pass_short_image :
    ∃ l, main_load false short_image = .ok l ∧ l.decoder_start = 16 ∧
      (fcr3_checksum (l.buffer.drop (l.decoder_start - l.data_length)) l.data_length).map
          Prod.fst = MEM_GETW_LE l.fcrypt3_header (2 * f_csum_sub) ∧
      (fcr3_decrypt (l.buffer.drop (l.decoder_start - l.data_length)) l.data_length 0).map
          Prod.fst = MEM_GETW_LE l.fcrypt3_header (2 * f_csum_add) ∧
      MEM_GETB l.fcrypt3_header (2 * f_key) = some 0 ∧
      main false short_image = .error .undefinedBehaviour :=
  ⟨{ fcrypt3_header := short_image.drop 16, buffer := short_image.take 16,
     decoder_start := 16, data_length := 16 }, by rfl, by rfl, by rfl, by rfl, by rfl, by rfl⟩

/-- Both gates decide the outcome of a loaded image of at least 24 bytes. -/
theorem integrity_gates_of_room (be : Bool) (file : List Nat) (l : Loaded)
    (h : main_load be file = .ok l) (h24 : 24 ≤ l.decoder_start) (key : Nat)
    (hkey : MEM_GETB l.fcrypt3_header (2 * f_key) = some key) :
    ((∃ out, main be file = .ok out) ↔
      (fcr3_checksum (l.buffer.drop (l.decoder_start - l.data_length)) l.data_length).map
          Prod.fst = MEM_GETW_LE l.fcrypt3_header (2 * f_csum_sub) ∧
      (fcr3_decrypt (l.buffer.drop (l.decoder_start - l.data_length)) l.data_length key).map
          Prod.fst = MEM_GETW_LE l.fcrypt3_header (2 * f_csum_add)) ∧
    ((∀ out, main be file ≠ .ok out) → main be file = .error .fileCorrupted) := by
  obtain ⟨w1, w2, w3, w4, _⟩ := main_load_ok be file l h
  have hpl : (l.buffer.drop (l.decoder_start - l.data_length)).length = l.data_length := by
    simp; omega
  have hck := checksum_loop_spec (l.buffer.drop (l.decoder_start - l.data_length))
  rw [hpl] at hck
  obtain ⟨a, b, c, decoded, g1, g2, g3, hd, _, _, hm⟩ := main_outcome be file l h
  rw [hkey] at g3
  simp only [Option.some.injEq] at g3
  subst g3
  simp only [fcr3_checksum, hck, Option.map_some', g1, g2, hd, Option.some.injEq]
  rw [hm]
  by_cases c1 : u16 (0 - ((l.buffer.drop (l.decoder_start - l.data_length)).sum : Nat)) = a
  · by_cases c2 : (l.buffer.drop (l.decoder_start - l.data_length)).sum % 65536 = b
    · rw [if_neg (not_not.mpr c1), if_neg (not_not.mpr c2), if_pos h24]
      exact ⟨⟨fun _ => ⟨c1, c2⟩, fun _ => ⟨_, rfl⟩⟩, fun hno => absurd rfl (hno _)⟩
    · rw [if_neg (not_not.mpr c1), if_pos c2]
      exact ⟨⟨fun ⟨_, ho⟩ => (nomatch ho), fun hh => absurd hh.2 c2⟩, fun _ => rfl⟩
  · rw [if_pos c1]
    exact ⟨⟨fun ⟨_, ho⟩ => (nomatch ho), fun hh => absurd hh.1 c1⟩, fun _ => rfl⟩

/-- C9: the page count is `N div 512` when `N mod 512 = 0` and `N div 512 + 1`
otherwise, the last-page bytes are `N mod 512` (so 512 gives `(1, 0)` and 513
gives `(2, 1)`); a successful run stores both for `N` the length of its output,
low byte first, at words 2 and 1 of the output header. -/
theorem size_fields_written :
    (∀ n, size_fields n = (if n % 512 = 0 then n / 512 else n / 512 + 1, n % 512)) ∧
    size_fields 512 = (1, 0) ∧ size_fields 513 = (2, 1) ∧
    ∀ (be : Bool) (file out : List Nat), main be file = .ok out →
      out[2 * e_cp]? = some ((size_fields out.length).1 % 256) ∧
      out[2 * e_cp + 1]? = some ((size_fields out.length).1 / 256 % 256) ∧
      out[2 * e_cblp]? = some ((size_fields out.length).2 % 256) ∧
      out[2 * e_cblp + 1]? = some ((size_fields out.length).2 / 256 % 256) := by
  refine ⟨?_, by decide, by decide, ?_⟩
  · intro n
    unfold size_fields
    by_cases h : n % 512 = 0
    · simp [h]
    · simp [h]
  · intro be file out h
    obtain ⟨l, decoded, hl, h24, hdl, hout, hlen⟩ := main_ok_inv be file out h
    obtain ⟨_, w2, w3, _⟩ := main_load_ok be file l hl
    have hb : (l.buffer.take (l.decoder_start - l.data_length) ++ decoded).length =
        l.decoder_start := by
      simp [hdl, w2]; omega
    obtain ⟨_, _, _, _, _, _, _, _, p4, p5, p2, p3⟩ :=
      patched_bytes _ l.fcrypt3_header l.decoder_start hb h24
    rw [hlen, hout]
    exact ⟨p4, p5, p2, p3⟩

/-- A witness for C9: the run on the sample file. -/
theorem size_fields_written_witness :
    ∃ out, main false sample_file = .ok out ∧
      out[2 * e_cp]? = some ((size_fields out.length).1 % 256) :=
  ⟨_, by rfl, (size_fields_written.2.2.2 false sample_file _ (by rfl)).1⟩

/-- C10: on a successful run the bytes of words 8, 7, 10 and 11 of the output
header are the bytes of words 0, 1, 2 and 3 of the protector header (the 16
bytes of the input that follow the image), whatever the input header and the
decode left there. -/
theorem entry_context_patch (be : Bool) (file out : List Nat) (l : Loaded)
    (hl : main_load be file = .ok l) (h : main be file = .ok out) :
    l.fcrypt3_header = (file.drop out.length).take 16 ∧ l.fcrypt3_header.length = 16 ∧
    2 * e_cs + 1 < out.length ∧
    ∀ r, r < 2 →
      out[2 * e_sp + r]? = l.fcrypt3_header[2 * f_sp + r]? ∧
      out[2 * e_ss + r]? = l.fcrypt3_header[2 * f_ss + r]? ∧
      out[2 * e_ip + r]? = l.fcrypt3_header[2 * f_ip + r]? ∧
      out[2 * e_cs + r]? = l.fcrypt3_header[2 * f_cs + r]? := by
  obtain ⟨l2, decoded, hl2, h24, hdl, hout, hlen⟩ := main_ok_inv be file out h
  rw [hl] at hl2
  simp only [Except.ok.injEq] at hl2
  subst hl2
  obtain ⟨w1, w2, w3, _, _, _, _, w8⟩ := main_load_ok be file l hl
  have hb : (l.buffer.take (l.decoder_start - l.data_length) ++ decoded).length =
      l.decoder_start := by
    simp [hdl, w2]; omega
  obtain ⟨p16, p17, p14, p15, p20, p21, p22, p23, _⟩ :=
    patched_bytes _ l.fcrypt3_header l.decoder_start hb h24
  have g : ∀ q, q < 16 → l.fcrypt3_header[q]? = some (l.fcrypt3_header.getD q 0) := by
    intro q hq
    rw [List.getD_eq_getElem?_getD, List.getElem?_eq_getElem (by omega)]; rfl
  refine ⟨by rw [hlen]; exact w8, w1, by rw [hlen]; simp [e_cs]; omega, ?_⟩
  intro r hr
  rw [hout]
  have hr2 : r = 0 ∨ r = 1 := by omega
  rcases hr2 with rfl | rfl
  · simp only [e_sp, e_ss, e_ip, e_cs, f_sp, f_ss, f_ip, f_cs]
    exact ⟨by rw [g 0 (by omega)]; exact p16, by rw [g 2 (by omega)]; exact p14,
      by rw [g 4 (by omega)]; exact p20, by rw [g 6 (by omega)]; exact p22⟩
  · simp only [e_sp, e_ss, e_ip, e_cs, f_sp, f_ss, f_ip, f_cs]
    exact ⟨by rw [g 1 (by omega)]; exact p17, by rw [g 3 (by omega)]; exact p15,
      by rw [g 5 (by omega)]; exact p21, by rw [g 7 (by omega)]; exact p23⟩

/-- A witness for C10: the run on the sample file. -/
theorem entry_context_patch_witness :
    ∃ l out, main_load false sample_file = .ok l ∧ main false sample_file = .ok out ∧
      out[2 * e_sp]? = l.fcrypt3_header[2 * f_sp]? :=
  ⟨_, _, by rfl, by rfl,
    ((entry_context_patch false sample_file _ _ (by rfl) (by rfl)).2.2.2 0 (by decide)).1⟩

/-! ## The header codec, concatenation and the layout of a run -/

theorem getw_value (lo hi : Nat) (h : lo < 256) : (hi <<< 8) ||| lo = lo + 256 * hi := by
  rw [Nat.shiftLeft_eq, Nat.mul_comm hi, Nat.add_comm]
  exact (Nat.mul_add_lt_is_or (i := 8) h hi).symm

/-- C20: for a buffer, an offset `p` with `p + 1` inside it and a value `v`,
`MEM_PUTW_LE` sets the bytes at `p` and `p + 1` to `v mod 256` and
`(v div 256) mod 256` and leaves every other byte as it was; `MEM_GETW_LE`
reads `v mod 65536` back; and `MEM_GETW_LE` of the bytes `(lo, hi)` is
`lo + 256 * hi`. -/
theorem header_codec (mem : List Nat) (p v : Nat) (hp : p + 1 < mem.length) :
    ∃ out, MEM_PUTW_LE mem p v = some out ∧ out.length = mem.length ∧
      out[p]? = some (v % 256) ∧ out[p + 1]? = some (v / 256 % 256) ∧
      (∀ q, q ≠ p → q ≠ p + 1 → out[q]? = mem[q]?) ∧
      MEM_GETW_LE out p = some (v % 65536) ∧
      ∀ lo hi, lo < 256 → hi < 256 → mem[p]? = some lo → mem[p + 1]? = some hi →
        MEM_GETW_LE mem p = some (lo + 256 * hi) := by
  refine ⟨_, putw_of_lt mem p v hp, by simp, ?_, ?_, ?_, ?_, ?_⟩
  · simp [List.getElem?_set, and_ff]; omega
  · simp [List.getElem?_set, and_ff, shr8]; omega
  · intro q h1 h2
    simp [List.getElem?_set, Ne.symm h1, Ne.symm h2]
  · rw [getw_of_lt _ p (by simpa using hp)]
    have e1 : ((mem.set p (v &&& 0xff)).set (p + 1) ((v >>> 8) &&& 0xff)).getD p 0 = v % 256 := by
      rw [getD_set_eq, getD_set_eq]
      simp [and_ff, show p < mem.length by omega]
    have e2 : ((mem.set p (v &&& 0xff)).set (p + 1) ((v >>> 8) &&& 0xff)).getD (p + 1) 0 =
        v / 256 % 256 := by
      rw [getD_set_eq]
      simp [and_ff, shr8, hp]
    rw [e1, e2, getw_value _ _ (Nat.mod_lt _ (by decide))]
    congr 1; omega
  · intro lo hi hlo _ h0 h1
    rw [getw_of_lt mem p hp]
    have e1 : mem.getD p 0 = lo := by simp [List.getD_eq_getElem?_getD, h0]
    have e2 : mem.getD (p + 1) 0 = hi := by simp [List.getD_eq_getElem?_getD, h1]
    rw [e1, e2, getw_value _ _ hlo]

/-- A witness for C20: a word stored at offset 2 of the sample payload. -/
theorem header_codec_witness :
    2 + 1 < sample_payload.length ∧
    ∃ out, MEM_PUTW_LE sample_payload 2 0x1234 = some out ∧
      MEM_GETW_LE out 2 = some (0x1234 % 65536) := by
  obtain ⟨out, h1, _, _, _, _, h2, _⟩ := header_codec sample_payload 2 0x1234 (by decide)
  exact ⟨by decide, out, h1, h2⟩

theorem ext_getD (a b : List Nat) (hl : a.length = b.length)
    (h : ∀ m, m < a.length → a.getD m 0 = b.getD m 0) : a = b := by
  apply List.ext_getElem hl
  intro m h1 h2
  have := h m h1
  simpa [List.getD_eq_getElem?_getD, List.getElem?_eq_getElem h1,
    List.getElem?_eq_getElem h2] using this

theorem getD_append_lt (a b : List Nat) (n : Nat) (h : n < a.length) :
    (a ++ b).getD n 0 = a.getD n 0 := by
  simp [List.getD_eq_getElem?_getD, List.getElem?_append_left h]

theorem getD_append_add (a b : List Nat) (n : Nat) :
    (a ++ b).getD (a.length + n) 0 = b.getD n 0 := by
  simp [List.getD_eq_getElem?_getD, List.getElem?_append_right]

theorem unmasked_append_lt (k : Nat) (a b : List Nat) (n : Nat) (h : n < a.length) :
    unmasked k (a ++ b) n = unmasked k a n := by
  unfold unmasked; rw [getD_append_lt a b n h]

theorem unmasked_append_add (k : Nat) (a b : List Nat) (n : Nat) :
    unmasked k (a ++ b) (a.length + n) = unmasked ((k + a.length) % 256) b n := by
  unfold unmasked; rw [getD_append_add]; unfold u8; push_cast; omega

theorem plain_byte_append_lt (k : Nat) (a b : List Nat) (m : Nat) (ha : a.length % 16 = 0)
    (h : m < a.length) : plain_byte k (a ++ b) m = plain_byte k a m := by
  rw [plain_byte_eq, plain_byte_eq]
  by_cases h8 : m % 16 < 8
  · rw [if_pos h8, if_pos h8, unmasked_append_lt k a b m h,
      unmasked_append_lt k a b (m + 8) (by omega)]
  · rw [if_neg h8, if_neg h8, unmasked_append_lt k a b m h,
      unmasked_append_lt k a b (m - 8) (by omega)]

theorem plain_byte_append_add (k : Nat) (a b : List Nat) (m : Nat) (ha : a.length % 16 = 0) :
    plain_byte k (a ++ b) (a.length + m) = plain_byte ((k + a.length) % 256) b m := by
  rw [plain_byte_eq, plain_byte_eq]
  have e : (a.length + m) % 16 = m % 16 := by omega
  rw [e]
  by_cases h8 : m % 16 < 8
  · rw [if_pos h8, if_pos h8, unmasked_append_add, Nat.add_assoc, unmasked_append_add]
  · have e2 : a.length + m - 8 = a.length + (m - 8) := by omega
    rw [if_neg h8, if_neg h8, unmasked_append_add, e2, unmasked_append_add]

/-- Decoding a concatenation: the second part is decoded with the key advanced
by the length of the first. -/
theorem decrypt_append (k : Nat) (p1 p2 : List Nat) (h1 : p1.length % 16 = 0)
    (h2 : p2.length % 16 = 0) :
    ∃ d1 d2, fcr3_decrypt p1 p1.length k = some (p1.sum % 65536, d1) ∧
      fcr3_decrypt p2 p2.length ((k + p1.length) % 256) = some (p2.sum % 65536, d2) ∧
      fcr3_decrypt (p1 ++ p2) (p1 ++ p2).length k =
        some ((p1.sum % 65536 + p2.sum % 65536) % 65536, d1 ++ d2) ∧
      d1.length = p1.length ∧ d2.length = p2.length := by
  obtain ⟨d1, e1, l1, f1⟩ := fcr3_decrypt_spec p1 k h1
  obtain ⟨d2, e2, l2, f2⟩ := fcr3_decrypt_spec p2 ((k + p1.length) % 256) h2
  obtain ⟨d, e, l, f⟩ := fcr3_decrypt_spec (p1 ++ p2) k (by simp; omega)
  refine ⟨d1, d2, e1, e2, ?_, l1, l2⟩
  have hd : d = d1 ++ d2 := by
    apply ext_getD
    · simp [l, l1, l2]
    · intro m hm
      rw [l] at hm
      rw [f m hm]
      by_cases hlt : m < p1.length
      · rw [getD_append_lt d1 d2 m (by omega), f1 m hlt, plain_byte_append_lt k p1 p2 m h1 hlt]
      · obtain ⟨n, rfl⟩ : ∃ n, m = p1.length + n := ⟨m - p1.length, by omega⟩
        have hn : n < p2.length := by simp at hm; omega
        rw [← l1, getD_append_add d1 d2 n, f2 n hn, l1, plain_byte_append_add k p1 p2 n h1]
  rw [e, hd]
  congr 2
  simp [List.sum_append]

/-- C18: for payloads `p1`, `p2` whose lengths are multiples of 16, decoding
`p1 ++ p2` with key `k` gives the bytes of `p1` decoded with `k` followed by
those of `p2` decoded with `(k + length p1) mod 256`, and returns the sum of
both checksums modulo 65536; so the output block at an offset is the decode of
the input block there with the key `(k + offset) mod 256`. -/
theorem fcr3_decrypt_concat (k : Nat) (p1 p2 : List Nat) (h1 : p1.length % 16 = 0)
    (h2 : p2.length % 16 = 0) :
    (∃ c1 d1 c2 d2, fcr3_decrypt p1 p1.length k = some (c1, d1) ∧
      fcr3_decrypt p2 p2.length ((k + p1.length) % 256) = some (c2, d2) ∧
      fcr3_decrypt (p1 ++ p2) (p1 ++ p2).length k = some ((c1 + c2) % 65536, d1 ++ d2)) ∧
    ∀ blk post : List Nat, p2 = blk ++ post → blk.length = 16 →
      ∃ ck d cb db, fcr3_decrypt (p1 ++ p2) (p1 ++ p2).length k = some (ck, d) ∧
        fcr3_decrypt blk blk.length ((k + p1.length) % 256) = some (cb, db) ∧
        (d.drop p1.length).take 16 = db := by
  obtain ⟨d1, d2, e1, e2, e, l1, l2⟩ := decrypt_append k p1 p2 h1 h2
  refine ⟨⟨_, d1, _, d2, e1, e2, e⟩, ?_⟩
  intro blk post hp hb
  subst hp
  have hpost : post.length % 16 = 0 := by simp at h2; omega
  obtain ⟨db, dp, b1, _, b3, lb, _⟩ :=
    decrypt_append ((k + p1.length) % 256) blk post (by omega) hpost
  rw [e2] at b3
  simp only [Option.some.injEq, Prod.mk.injEq] at b3
  refine ⟨_, _, _, db, e, b1, ?_⟩
  rw [b3.2, ← l1, List.drop_left, List.take_left' (by omega)]

/-- A witness for C18: the sample payload followed by its swapped copy. -/
theorem fcr3_decrypt_concat_witness :
    sample_payload.length % 16 = 0 ∧ swapped_payload.length % 16 = 0 ∧
    ∃ c1 d1 c2 d2, fcr3_decrypt sample_payload sample_payload.length 0x42 = some (c1, d1) ∧
      fcr3_decrypt swapped_payload swapped_payload.length
        ((0x42 + sample_payload.length) % 256) = some (c2, d2) ∧
      fcr3_decrypt (sample_payload ++ swapped_payload)
        (sample_payload ++ swapped_payload).length 0x42 = some ((c1 + c2) % 65536, d1 ++ d2) :=
  ⟨by decide, by decide,
    (fcr3_decrypt_concat 0x42 sample_payload swapped_payload (by decide) (by decide)).1⟩

/-- C14: for a payload whose length is a multiple of 16 and any key, the
result of `fcr3_checksum` plus the checksum `fcr3_decrypt` returns is 0 modulo
65536; so on a loaded image that gets past both gates the stored additive word
is the 16-bit negation of the stored subtractive word. -/
theorem checksums_cancel (p : List Nat) (k : Nat) (hlen : p.length % 16 = 0) :
    (∃ c a out, fcr3_checksum p p.length = some (c, p) ∧
      fcr3_decrypt p p.length k = some (a, out) ∧ (c + a) % 65536 = 0) ∧
    ∀ (be : Bool) (file : List Nat) (l : Loaded), main_load be file = .ok l →
      main be file ≠ .error .fileCorrupted →
      ∃ s a, MEM_GETW_LE l.fcrypt3_header (2 * f_csum_sub) = some s ∧
        MEM_GETW_LE l.fcrypt3_header (2 * f_csum_add) = some a ∧ (s + a) % 65536 = 0 := by
  constructor
  · obtain ⟨out, hd, _⟩ := fcr3_decrypt_spec p k hlen
    refine ⟨u16 (0 - (p.sum : Nat)), _, out, ?_, hd, ?_⟩
    · simp only [fcr3_checksum, checksum_loop_spec, Option.map_some']
    · unfold u16; omega
  · intro be file l hl hne
    obtain ⟨s, a, key, decoded, g1, g2, _, _, _, _, hm⟩ := main_outcome be file l hl
    refine ⟨s, a, g1, g2, ?_⟩
    rw [hm] at hne
    by_cases c1 : u16 (0 - ((l.buffer.drop (l.decoder_start - l.data_length)).sum : Nat)) = s
    · by_cases c2 : (l.buffer.drop (l.decoder_start - l.data_length)).sum % 65536 = a
      · rw [← c1, ← c2]; unfold u16; omega
      · rw [if_neg (not_not.mpr c1), if_pos c2] at hne
        exact absurd rfl hne
    · rw [if_pos c1] at hne
      exact absurd rfl hne

/-- A witness for C14: the sample payload under key `0x42`. -/
theorem checksums_cancel_witness :
    sample_payload.length % 16 = 0 ∧
    ∃ c a out, fcr3_checksum sample_payload sample_payload.length = some (c, sample_payload) ∧
      fcr3_decrypt sample_payload sample_payload.length 0x42 = some (a, out) ∧
      (c + a) % 65536 = 0 :=
  ⟨by decide, (checksums_cancel sample_payload 0x42 (by decide)).1⟩

/-- A successful run in full: the loaded image, both gates passed, the decoded
payload and the patched output. -/
theorem main_ok_detail (be : Bool) (file out : List Nat) (h : main be file = .ok out) :
    ∃ l key decoded, main_load be file = .ok l ∧
      MEM_GETB l.fcrypt3_header (2 * f_key) = some key ∧
      fcr3_decrypt (l.buffer.drop (l.decoder_start - l.data_length)) l.data_length key =
        some ((l.buffer.drop (l.decoder_start - l.data_length)).sum % 65536, decoded) ∧
      MEM_GETW_LE l.fcrypt3_header (2 * f_csum_sub) =
        some (u16 (0 - ((l.buffer.drop (l.decoder_start - l.data_length)).sum : Nat))) ∧
      MEM_GETW_LE l.fcrypt3_header (2 * f_csum_add) =
        some ((l.buffer.drop (l.decoder_start - l.data_length)).sum % 65536) ∧
      24 ≤ l.decoder_start ∧ decoded.length = l.data_length ∧
      out = patched (l.buffer.take (l.decoder_start - l.data_length) ++ decoded)
        l.fcrypt3_header l.decoder_start := by
  cases hl : main_load be file with
  | error e => simp [main, hl, bind, Except.bind] at h
  | ok l =>
    obtain ⟨a, b, key, decoded, g1, g2, g3, hd, hdl, _, hm⟩ := main_outcome be file l hl
    rw [hm] at h
    split at h
    · simp at h
    · rename_i c1
      split at h
      · simp at h
      · rename_i c2
        split at h
        · rename_i h24
          simp only [Except.ok.injEq] at h
          refine ⟨l, key, decoded, rfl, g3, hd, ?_, ?_, h24, hdl, h.symm⟩
          · rw [g1, not_not.mp c1]
          · rw [g2, not_not.mp c2]
        · simp at h

theorem patched_other (b fh : List Nat) (n q : Nat)
    (hq : q / 2 ∉ [e_cblp, e_cp, e_ss, e_sp, e_ip, e_cs]) :
    (patched b fh n)[q]? = b[q]? := by
  simp only [e_cblp, e_cp, e_ss, e_sp, e_ip, e_cs, List.mem_cons, List.mem_singleton,
    List.not_mem_nil, or_false, not_or] at hq
  have h2 : 2 ≠ q := by omega
  have h3 : 3 ≠ q := by omega
  have h4 : 4 ≠ q := by omega
  have h5 : 5 ≠ q := by omega
  have h14 : 14 ≠ q := by omega
  have h15 : 15 ≠ q := by omega
  have h16 : 16 ≠ q := by omega
  have h17 : 17 ≠ q := by omega
  have h20 : 20 ≠ q := by omega
  have h21 : 21 ≠ q := by omega
  have h22 : 22 ≠ q := by omega
  have h23 : 23 ≠ q := by omega
  simp [patched, List.getElem?_set, h2, h3, h4, h5, h14, h15, h16, h17, h20, h21, h22, h23]

/-- C11: the output of a successful run has length `(e_cparhdr + e_cs) * 16`;
outside words 1, 2, 7, 8, 10 and 11 of the header every output byte before the
payload range equals the input byte at that offset, and every output byte in
the payload range is the byte of `fcr3_decrypt` of the input payload with the
key byte of the protector header. -/
theorem output_frame (be : Bool) (file out : List Nat) (h : main be file = .ok out) :
    ∃ l hdr cparhdr cs key ck decoded,
      main_load be file = .ok l ∧ fread file 0 0x20 = .ok hdr ∧
      MEM_GETW_LE hdr (2 * e_cparhdr) = some cparhdr ∧
      MEM_GETW_LE hdr (2 * e_cs) = some cs ∧
      out.length = (cparhdr + cs) * 16 ∧ l.data_length ≤ out.length ∧
      l.fcrypt3_header = (file.drop out.length).take 16 ∧
      MEM_GETB l.fcrypt3_header (2 * f_key) = some key ∧
      fcr3_decrypt ((file.drop (out.length - l.data_length)).take l.data_length)
        l.data_length key = some (ck, decoded) ∧
      ∀ q, q < out.length → q / 2 ∉ [e_cblp, e_cp, e_ss, e_sp, e_ip, e_cs] →
        (q < out.length - l.data_length → out[q]? = file[q]?) ∧
        (out.length - l.data_length ≤ q →
          out[q]? = decoded[q - (out.length - l.data_length)]?) := by
  obtain ⟨l, key, decoded, hl, gk, hd, _, _, h24, hdl, hout⟩ := main_ok_detail be file out h
  obtain ⟨hdr, magic, cs, cparhdr, cpar, fcs, fip, hhdr, _, _, hcs, hcparhdr, _, _, _, _, _, hds,
    _, _⟩ := main_load_inv be file l hl
  obtain ⟨_, w2, w3, _, _, _, w7, w8⟩ := main_load_ok be file l hl
  have hb : (l.buffer.take (l.decoder_start - l.data_length) ++ decoded).length =
      l.decoder_start := by
    simp [hdl, w2]; omega
  have hlen : out.length = l.decoder_start := by rw [hout, patched_length, hb]
  have hpay : l.buffer.drop (l.decoder_start - l.data_length) =
      (file.drop (l.decoder_start - l.data_length)).take l.data_length := by
    rw [w7, List.drop_take]
    congr 1; omega
  rw [hpay] at hd
  refine ⟨l, hdr, cparhdr, cs, key,
    ((file.drop (l.decoder_start - l.data_length)).take l.data_length).sum % 65536,
    decoded, hl, hhdr, hcparhdr, hcs, ?_, ?_, ?_, gk, ?_, ?_⟩
  · rw [hlen, hds]; ring
  · rw [hlen]; exact w3
  · rw [hlen]; exact w8
  · rw [hlen]; exact hd
  · intro q hq hnot
    rw [hlen] at hq ⊢
    have htl : (l.buffer.take (l.decoder_start - l.data_length)).length =
        l.decoder_start - l.data_length := by
      simp [w2]
    rw [hout, patched_other _ _ _ _ hnot]
    constructor
    · intro hlt
      rw [List.getElem?_append_left (by omega), List.getElem?_take_of_lt hlt, w7,
        List.getElem?_take_of_lt hq]
    · intro hge
      rw [List.getElem?_append_right (by omega), htl]

/-- A witness for C11: the run on the sample file. -/
theorem output_frame_witness :
    ∃ out cparhdr cs, main false sample_file = .ok out ∧ out.length = (cparhdr + cs) * 16 := by
  obtain ⟨out, hm⟩ : ∃ out, main false sample_file = .ok out := ⟨_, by rfl⟩
  obtain ⟨_, _, cparhdr, cs, _, _, _, _, _, _, _, hlen, _⟩ := output_frame false sample_file out hm
  exact ⟨out, cparhdr, cs, hm, hlen⟩

theorem fread_err (file : List Nat) (pos n : Nat) (e : Failure)
    (h : fread file pos n = .error e) : e = .readError := by
  unfold fread at h
  split at h
  · simp at h
  · simp only [Except.error.injEq] at h; exact h.symm

theorem defined_err {α : Type} (o : Option α) (e : Failure)
    (h : defined o = .error e) : e = .undefinedBehaviour := by
  cases o with
  | none => simp only [defined, Except.error.injEq] at h; exact h.symm
  | some a => simp [defined] at h

/-- The load stage ends with `EXE header not found!` exactly when the first 32
bytes are read and the signature word is neither accepted value. -/
theorem main_load_sig_iff (be : Bool) (file : List Nat) :
    main_load be file = .error .exeHeaderNotFound ↔
      ∃ hdr magic, fread file 0 0x20 = .ok hdr ∧ word_host be hdr e_magic = some magic ∧
        magic ≠ 0x5a4d ∧ magic ≠ 0x4d5a := by
  constructor
  · intro h
    unfold main_load at h
    simp only [bind, Except.bind, pure, Except.pure] at h
    split at h
    · rename_i e he
      simp only [Except.error.injEq] at h
      have := fread_err _ _ _ _ he
      rw [h] at this; cases this
    rename_i hdr hhdr
    split at h
    · rename_i e he
      simp only [Except.error.injEq] at h
      have := defined_err _ _ he
      rw [h] at this; cases this
    rename_i magic hmagic
    rw [defined_ok] at hmagic
    split at h
    · rename_i hsig
      exact ⟨hdr, magic, hhdr, hmagic, hsig⟩
    split at h
    · rename_i e he
      simp only [Except.error.injEq] at h
      have := defined_err _ _ he
      rw [h] at this; cases this
    split at h
    · rename_i e he
      simp only [Except.error.injEq] at h
      have := defined_err _ _ he
      rw [h] at this; cases this
    split at h
    · rename_i e he
      simp only [Except.error.injEq] at h
      have := fread_err _ _ _ _ he
      rw [h] at this; cases this
    split at h
    · rename_i e he
      simp only [Except.error.injEq] at h
      have := defined_err _ _ he
      rw [h] at this; cases this
    split at h
    · rename_i e he
      simp only [Except.error.injEq] at h
      have := defined_err _ _ he
      rw [h] at this; cases this
    split at h
    · rename_i e he
      simp only [Except.error.injEq] at h
      have := defined_err _ _ he
      rw [h] at this; cases this
    split at h
    · simp at h
    split at h
    · rename_i e he
      simp only [Except.error.injEq] at h
      have := fread_err _ _ _ _ he
      rw [h] at this; cases this
    · simp at h
  · rintro ⟨hdr, magic, hhdr, hmagic, hsig⟩
    unfold main_load
    simp only [bind, Except.bind, hhdr, hmagic, defined]
    rw [if_pos hsig]

theorem main_sig_iff (be : Bool) (file : List Nat) :
    main be file = .error .exeHeaderNotFound ↔
      main_load be file = .error .exeHeaderNotFound := by
  cases hl : main_load be file with
  | error e => simp only [main, hl, bind, Except.bind, Except.error.injEq]
  | ok l =>
    obtain ⟨a, b, c, d, _, _, _, _, _, _, hm⟩ := main_outcome be file l hl
    rw [hm]
    constructor
    · intro h
      split at h
      · simp at h
      · split at h
        · simp at h
        · split at h <;> simp at h
    · intro h; simp at h

theorem fread_header (file : List Nat) (h : 32 ≤ file.length) :
    fread file 0 0x20 = .ok (file.take 32) := by
  have : 0 + 32 ≤ file.length := by omega
  simp [fread, this]

theorem word_host_magic (be : Bool) (file : List Nat) (b0 b1 : Nat)
    (h0 : file[0]? = some b0) (h1 : file[1]? = some b1) :
    word_host be (file.take 32) e_magic =
      some (if be then (b0 <<< 8) ||| b1 else (b1 <<< 8) ||| b0) := by
  have t0 : (file.take 32)[0]? = some b0 := by
    rw [List.getElem?_take_of_lt (by decide)]; exact h0
  have t1 : (file.take 32)[1]? = some b1 := by
    rw [List.getElem?_take_of_lt (by decide)]; exact h1
  simp only [word_host, load, e_magic, Nat.mul_zero, Nat.zero_add, t0, t1]
  rfl

/-- C12: an input of at least 32 bytes gets past the signature test exactly when
its first two bytes are `(0x4D, 0x5A)` or `(0x5A, 0x4D)`, on either byte order
of the host; otherwise the run ends with `EXE header not found!`, and whether
it does depends on the first 32 bytes only. -/
theorem signature_check (be : Bool) (file : List Nat) (b0 b1 : Nat)
    (hlen : 32 ≤ file.length) (h0 : file[0]? = some b0) (h1 : file[1]? = some b1)
    (hb0 : b0 < 256) (hb1 : b1 < 256) :
    (main be file ≠ .error .exeHeaderNotFound ↔
      (b0 = 0x4d ∧ b1 = 0x5a) ∨ (b0 = 0x5a ∧ b1 = 0x4d)) ∧
    ∀ file2 : List Nat, file2.take 32 = file.take 32 →
      (main be file2 = .error .exeHeaderNotFound ↔ main be file = .error .exeHeaderNotFound) := by
  have hw := word_host_magic be file b0 b1 h0 h1
  have v1 := getw_value b0 b1 hb0
  have v2 := getw_value b1 b0 hb1
  constructor
  · rw [Ne, main_sig_iff, main_load_sig_iff]
    constructor
    · intro hno
      by_contra hc
      apply hno
      refine ⟨_, _, fread_header file hlen, hw, ?_, ?_⟩
      · cases be <;> simp only [Bool.false_eq_true, if_false, if_true] <;> omega
      · cases be <;> simp only [Bool.false_eq_true, if_false, if_true] <;> omega
    · rintro hsig ⟨hdr, magic, hhdr, hmagic, n1, n2⟩
      rw [fread_header file hlen] at hhdr
      simp only [Except.ok.injEq] at hhdr
      subst hhdr
      rw [hw] at hmagic
      simp only [Option.some.injEq] at hmagic
      subst hmagic
      cases be <;> simp only [Bool.false_eq_true, if_false, if_true] at n1 n2 <;> omega
  · intro file2 ht
    have hlen2 : 32 ≤ file2.length := by
      have := congrArg List.length ht
      simp at this; omega
    rw [main_sig_iff, main_sig_iff, main_load_sig_iff, main_load_sig_iff,
      fread_header file hlen, fread_header file2 hlen2, ht]

/-- C13 fails as stated: the sample file holds the additive checksum in word 6
and the subtractive checksum in word 7 and the run succeeds; the same file with
both words in the claimed order ends with `File corrupted!`. -/
theorem claimed_layout_counterexample :
    (∃ out, main false sample_file = .ok out) ∧
    MEM_GETW_LE ((sample_file.drop 48).take 16) (2 * 6) = some 136 ∧
    MEM_GETW_LE ((sample_file.drop 48).take 16) (2 * 7) = some 65400 ∧
    (fcr3_checksum ((sample_file.drop 32).take 16) 16).map Prod.fst = some 65400 ∧
    (fcr3_decrypt ((sample_file.drop 32).take 16) 16 0x42).map Prod.fst = some 136 ∧
    main false swapped_sums_file = .error .fileCorrupted :=
  ⟨⟨_, by rfl⟩, by decide, by decide, by decide, by decide, by rfl⟩

/-- C15 at the input `short_image`: both validations pass with
`e_cparhdr = 0` and `e_cs = 1`, the loaded image is 16 bytes long, below 24,
and the first store of the patch (word 8, byte offset 16) is outside it. -/
theorem short_image_overrun :
    ∃ l hdr, fread short_image 0 0x20 = .ok hdr ∧
      MEM_GETW_LE hdr (2 * e_cparhdr) = some 0 ∧ MEM_GETW_LE hdr (2 * e_cs) = some 1 ∧
      main_load false short_image = .ok l ∧ l.decoder_start = (0 + 1) * 16 ∧
      l.buffer.length = 16 ∧ copy_word l.buffer e_sp l.fcrypt3_header f_sp = none ∧
      main false short_image = .error .undefinedBehaviour :=
  ⟨{ fcrypt3_header := short_image.drop 16, buffer := short_image.take 16,
     decoder_start := 16, data_length := 16 }, short_image,
    by rfl, by rfl, by rfl, by rfl, by rfl, by rfl, by rfl, by rfl⟩

/-- C17 fails as stated: `low_entry_file` passes both validations and both
gates; its restored entry point is at file offset 32, before the payload range
`[48, 64)`. -/
theorem entry_point_counterexample :
    ∃ l hdr out, main_load false low_entry_file = .ok l ∧
      main false low_entry_file = .ok out ∧
      fread low_entry_file 0 0x20 = .ok hdr ∧
      MEM_GETW_LE hdr (2 * e_cparhdr) = some 2 ∧
      MEM_GETW_LE l.fcrypt3_header (2 * f_cs) = some 0 ∧
      MEM_GETW_LE l.fcrypt3_header (2 * f_ip) = some 0 ∧
      l.decoder_start = 64 ∧ l.data_length = 16 ∧
      ¬ (l.decoder_start - l.data_length ≤ 2 * 16 + 0 * 16 + 0 ∧
          2 * 16 + 0 * 16 + 0 < l.decoder_start) :=
  ⟨{ fcrypt3_header := low_entry_file.drop 64, buffer := low_entry_file.take 64,
     decoder_start := 64, data_length := 16 }, low_entry_file.take 32, _,
    by rfl, by rfl, by rfl, by rfl, by rfl, by rfl, by rfl, by rfl, by decide⟩

theorem getElem?_eq_getD (mem : List Nat) (q : Nat) (h : q < mem.length) :
    mem[q]? = some (mem.getD q 0) := by
  rw [List.getD_eq_getElem?_getD, List.getElem?_eq_getElem h]; rfl

/-- C13, amended: on a successful run the protector header is the 16 bytes after
the image, read as little-endian words: words 0 to 3 are the target
stack-pointer, stack-segment, instruction-pointer and code-segment, word 4 the
payload size in 16-byte units, the low byte of word 5 the key, word 6 the
additive checksum and word 7 the subtractive checksum. -/
theorem protector_layout (be : Bool) (file out : List Nat) (l : Loaded)
    (hl : main_load be file = .ok l) (h : main be file = .ok out) :
    l.fcrypt3_header = (file.drop out.length).take 16 ∧
    (∀ r, r < 2 →
      out[2 * e_sp + r]? = l.fcrypt3_header[2 * 0 + r]? ∧
      out[2 * e_ss + r]? = l.fcrypt3_header[2 * 1 + r]? ∧
      out[2 * e_ip + r]? = l.fcrypt3_header[2 * 2 + r]? ∧
      out[2 * e_cs + r]? = l.fcrypt3_header[2 * 3 + r]?) ∧
    (∃ cpar, MEM_GETW_LE l.fcrypt3_header (2 * 4) = some cpar ∧ l.data_length = cpar * 16) ∧
    ∃ key ck decoded sub, l.fcrypt3_header[2 * 5]? = some key ∧
      fcr3_decrypt (l.buffer.drop (l.decoder_start - l.data_length)) l.data_length key =
        some (ck, decoded) ∧
      MEM_GETW_LE l.fcrypt3_header (2 * 6) = some ck ∧
      fcr3_checksum (l.buffer.drop (l.decoder_start - l.data_length)) l.data_length =
        some (sub, l.buffer.drop (l.decoder_start - l.data_length)) ∧
      MEM_GETW_LE l.fcrypt3_header (2 * 7) = some sub := by
  obtain ⟨l2, key, decoded, hl2, gk, hd, gs, ga, h24, hdl, hout⟩ := main_ok_detail be file out h
  rw [hl] at hl2
  simp only [Except.ok.injEq] at hl2
  subst hl2
  obtain ⟨_, _, _, _, cpar, _, _, _, _, _, _, _, _, hcpar, _, _, _, _, hdlen, _⟩ :=
    main_load_inv be file l hl
  obtain ⟨w1, w2, w3, _, _, _, _, w8⟩ := main_load_ok be file l hl
  have hb : (l.buffer.take (l.decoder_start - l.data_length) ++ decoded).length =
      l.decoder_start := by
    simp [hdl, w2]; omega
  have hlen : out.length = l.decoder_start := by rw [hout, patched_length, hb]
  obtain ⟨p16, p17, p14, p15, p20, p21, p22, p23, _⟩ :=
    patched_bytes _ l.fcrypt3_header l.decoder_start hb h24
  have hpl : (l.buffer.drop (l.decoder_start - l.data_length)).length = l.data_length := by
    simp; omega
  have hck := checksum_loop_spec (l.buffer.drop (l.decoder_start - l.data_length))
  rw [hpl] at hck
  have g : ∀ q, q < 16 → l.fcrypt3_header[q]? = some (l.fcrypt3_header.getD q 0) :=
    fun q hq => getElem?_eq_getD _ q (by omega)
  refine ⟨by rw [hlen]; exact w8, ?_, ⟨cpar, hcpar, hdlen⟩, key, _, decoded, _, ?_, hd, ga, ?_, gs⟩
  · intro r hr
    rw [hout]
    have hr2 : r = 0 ∨ r = 1 := by omega
    rcases hr2 with rfl | rfl
    · simp only [e_sp, e_ss, e_ip, e_cs]
      exact ⟨by rw [g _ (by omega)]; exact p16,
        by rw [g _ (by omega)]; exact p14,
        by rw [g _ (by omega)]; exact p20,
        by rw [g _ (by omega)]; exact p22⟩
    · simp only [e_sp, e_ss, e_ip, e_cs]
      exact ⟨by rw [g _ (by omega)]; exact p17,
        by rw [g _ (by omega)]; exact p15,
        by rw [g _ (by omega)]; exact p21,
        by rw [g _ (by omega)]; exact p23⟩
  · exact gk
  · simp only [fcr3_checksum, hck, Option.map_some']

/-- A witness for C13, amended: the run on the sample file. -/
theorem protector_layout_witness :
    ∃ l out, main_load false sample_file = .ok l ∧ main false sample_file = .ok out ∧
      l.fcrypt3_header = (sample_file.drop out.length).take 16 :=
  ⟨_, _, by rfl, by rfl, (protector_layout false sample_file _ _ (by rfl) (by rfl)).1⟩

/-- C16: for a header pair that passes validation the payload length is a
positive multiple of 16, at most `decoder_start`; the payload starts at or
after the end of the header and ends with the loaded buffer; and
`fcr3_checksum` and `fcr3_decrypt` on it return, so they stay inside it. -/
theorem payload_range_ok (be : Bool) (file : List Nat) (l : Loaded)
    (h : main_load be file = .ok l) :
    ∃ hdr cparhdr, fread file 0 0x20 = .ok hdr ∧
      MEM_GETW_LE hdr (2 * e_cparhdr) = some cparhdr ∧
      0 < l.data_length ∧ l.data_length % 16 = 0 ∧ l.data_length ≤ l.decoder_start ∧
      cparhdr * 16 ≤ l.decoder_start - l.data_length ∧
      l.buffer.length = l.decoder_start ∧
      (l.buffer.drop (l.decoder_start - l.data_length)).length = l.data_length ∧
      (∃ sub, fcr3_checksum (l.buffer.drop (l.decoder_start - l.data_length)) l.data_length =
        some (sub, l.buffer.drop (l.decoder_start - l.data_length))) ∧
      ∀ key, ∃ ck decoded,
        fcr3_decrypt (l.buffer.drop (l.decoder_start - l.data_length)) l.data_length key =
          some (ck, decoded) ∧ decoded.length = l.data_length := by
  obtain ⟨hdr, _, cs, cparhdr, cpar, fcs, fip, hhdr, _, _, _, hcparhdr, _, _, _, _, hv, hds,
    hdlen, _⟩ := main_load_inv be file l h
  obtain ⟨_, w2, w3, w4, w5, _⟩ := main_load_ok be file l h
  have hpl : (l.buffer.drop (l.decoder_start - l.data_length)).length = l.data_length := by
    simp; omega
  have hck := checksum_loop_spec (l.buffer.drop (l.decoder_start - l.data_length))
  rw [hpl] at hck
  refine ⟨hdr, cparhdr, hhdr, hcparhdr, w5, w4, w3, by omega, w2, hpl,
    ⟨u16 (0 - ((l.buffer.drop (l.decoder_start - l.data_length)).sum : Nat)), ?_⟩, ?_⟩
  · simp only [fcr3_checksum, hck, Option.map_some']
  · intro key
    obtain ⟨d, hd, hdl, _⟩ := fcr3_decrypt_spec
      (l.buffer.drop (l.decoder_start - l.data_length)) key (by omega)
    rw [hpl] at hd hdl
    exact ⟨_, d, hd, hdl⟩

/-- A witness for C16: the sample file. -/
theorem payload_range_ok_witness :
    ∃ l, main_load false sample_file = .ok l ∧ 0 < l.data_length ∧ l.data_length % 16 = 0 := by
  obtain ⟨l, hl⟩ : ∃ l, main_load false sample_file = .ok l := ⟨_, by rfl⟩
  obtain ⟨_, _, _, _, h1, h2, _⟩ := payload_range_ok false sample_file l hl
  exact ⟨l, hl, h1, h2⟩

/-- C17, amended: for a header pair that passes validation the offset
`header_length + cs*16 + ip` of the restored entry point is at least
`header_length` and at most `header_length + payload_length`, which is at most
the image length; it lies in the payload range when the payload fills the
image after the header and `cs*16 + ip < payload_length`. -/
theorem entry_point_bound (be : Bool) (file : List Nat) (l : Loaded)
    (h : main_load be file = .ok l) :
    ∃ hdr cparhdr fcs fip, fread file 0 0x20 = .ok hdr ∧
      MEM_GETW_LE hdr (2 * e_cparhdr) = some cparhdr ∧
      MEM_GETW_LE l.fcrypt3_header (2 * f_cs) = some fcs ∧
      MEM_GETW_LE l.fcrypt3_header (2 * f_ip) = some fip ∧
      cparhdr * 16 ≤ cparhdr * 16 + fcs * 16 + fip ∧
      cparhdr * 16 + fcs * 16 + fip ≤ cparhdr * 16 + l.data_length ∧
      cparhdr * 16 + l.data_length ≤ l.decoder_start ∧
      (l.decoder_start = cparhdr * 16 + l.data_length → fcs * 16 + fip < l.data_length →
        l.decoder_start - l.data_length ≤ cparhdr * 16 + fcs * 16 + fip ∧
        cparhdr * 16 + fcs * 16 + fip < l.decoder_start) := by
  obtain ⟨hdr, _, cs, cparhdr, cpar, fcs, fip, hhdr, _, _, _, hcparhdr, _, _, hfcs, hfip, hv, hds,
    hdlen, _⟩ := main_load_inv be file l h
  refine ⟨hdr, cparhdr, fcs, fip, hhdr, hcparhdr, hfcs, hfip, by omega, by omega, by omega, ?_⟩
  intro h1 h2
  omega

/-- A witness for C17, amended: the sample file. -/
theorem entry_point_bound_witness :
    ∃ l cparhdr fcs fip, main_load false sample_file = .ok l ∧
      cparhdr * 16 + fcs * 16 + fip ≤ cparhdr * 16 + l.data_length := by
  obtain ⟨l, hl⟩ : ∃ l, main_load false sample_file = .ok l := ⟨_, by rfl⟩
  obtain ⟨_, cparhdr, fcs, fip, _, _, _, _, _, h2, _⟩ := entry_point_bound false sample_file l hl
  exact ⟨l, cparhdr, fcs, fip, hl, h2⟩

theorem getw_lt (mem : List Nat) (p w : Nat) (hb : ∀ x ∈ mem, x < 256)
    (h : MEM_GETW_LE mem p = some w) : w < 65536 := by
  unfold MEM_GETW_LE load at h
  cases h1 : mem[p + 1]? with
  | none => simp [h1] at h
  | some hi =>
    cases h0 : mem[p]? with
    | none => simp [h1, h0] at h
    | some lo =>
      simp only [h1, h0, Option.bind_eq_bind, Option.some_bind, pure, Option.some.injEq] at h
      have hhi : hi < 256 := hb hi (List.getElem?_mem h1)
      have hlo : lo < 256 := hb lo (List.getElem?_mem h0)
      rw [getw_value lo hi hlo] at h
      omega

theorem putw_getw (mem : List Nat) (p v : Nat) (hp : p + 1 < mem.length) :
    ∃ out, MEM_PUTW_LE mem p v = some out ∧ MEM_GETW_LE out p = some (v % 65536) := by
  refine ⟨_, putw_of_lt mem p v hp, ?_⟩
  rw [getw_of_lt _ p (by simpa using hp)]
  have e1 : ((mem.set p (v &&& 0xff)).set (p + 1) ((v >>> 8) &&& 0xff)).getD p 0 = v % 256 := by
    rw [getD_set_eq, getD_set_eq]
    simp [and_ff, show p < mem.length by omega]
  have e2 : ((mem.set p (v &&& 0xff)).set (p + 1) ((v >>> 8) &&& 0xff)).getD (p + 1) 0 =
      v / 256 % 256 := by
    rw [getD_set_eq]
    simp [and_ff, shr8, hp]
  rw [e1, e2, getw_value _ _ (Nat.mod_lt _ (by decide))]
  congr 1; omega

/-- C19: for a file of bytes whose header pair passes validation, the page
count is at most 4096 and the last-page bytes are below 512, `MEM_PUTW_LE`
followed by `MEM_GETW_LE` gives each of them back unchanged, and the image
length is `page_count * 512` when the last-page bytes are 0 and
`(page_count - 1) * 512 + last_page_bytes` otherwise. -/
theorem size_fields_lossless (be : Bool) (file : List Nat) (l : Loaded)
    (h : main_load be file = .ok l) (hb : ∀ x ∈ file, x < 256) :
    (size_fields l.decoder_start).1 ≤ 4096 ∧ (size_fields l.decoder_start).2 < 512 ∧
    (∀ (mem : List Nat) (p : Nat), p + 1 < mem.length →
      ∃ o, MEM_PUTW_LE mem p (size_fields l.decoder_start).1 = some o ∧
        MEM_GETW_LE o p = some (size_fields l.decoder_start).1) ∧
    (∀ (mem : List Nat) (p : Nat), p + 1 < mem.length →
      ∃ o, MEM_PUTW_LE mem p (size_fields l.decoder_start).2 = some o ∧
        MEM_GETW_LE o p = some (size_fields l.decoder_start).2) ∧
    l.decoder_start =
      if (size_fields l.decoder_start).2 = 0 then (size_fields l.decoder_start).1 * 512
      else ((size_fields l.decoder_start).1 - 1) * 512 + (size_fields l.decoder_start).2 := by
  obtain ⟨hdr, _, cs, cparhdr, _, _, _, hhdr, _, _, hcs, hcparhdr, _, _, _, _, _, hds, _, _⟩ :=
    main_load_inv be file l h
  obtain ⟨_, hh, _⟩ := fread_ok _ _ _ _ hhdr
  have hbh : ∀ x ∈ hdr, x < 256 := by
    intro x hx
    rw [hh] at hx
    exact hb x (List.mem_of_mem_drop (List.mem_of_mem_take hx))
  have c1 := getw_lt hdr _ cs hbh hcs
  have c2 := getw_lt hdr _ cparhdr hbh hcparhdr
  have hpc : (size_fields l.decoder_start).1 =
      if l.decoder_start % 512 = 0 then l.decoder_start / 512 else l.decoder_start / 512 + 1 := by
    unfold size_fields
    by_cases hz : l.decoder_start % 512 = 0
    · simp [hz]
    · simp [hz]
  have hlp : (size_fields l.decoder_start).2 = l.decoder_start % 512 := rfl
  have b1 : (size_fields l.decoder_start).1 ≤ 4096 := by
    rw [hpc]; split <;> omega
  have b2 : (size_fields l.decoder_start).2 < 512 := by
    rw [hlp]; omega
  refine ⟨b1, b2, ?_, ?_, ?_⟩
  · intro mem p hp
    obtain ⟨o, h1, h2⟩ := putw_getw mem p (size_fields l.decoder_start).1 hp
    rw [Nat.mod_eq_of_lt (by omega)] at h2
    exact ⟨o, h1, h2⟩
  · intro mem p hp
    obtain ⟨o, h1, h2⟩ := putw_getw mem p (size_fields l.decoder_start).2 hp
    rw [Nat.mod_eq_of_lt (by omega)] at h2
    exact ⟨o, h1, h2⟩
  · rw [hpc, hlp]
    by_cases hz : l.decoder_start % 512 = 0
    · rw [if_pos hz, if_pos hz]; omega
    · rw [if_neg hz, if_neg hz]; omega

/-- A witness for C19: the sample file. -/
theorem size_fields_lossless_witness :
    (∀ x ∈ sample_file, x < 256) ∧
    ∃ l, main_load false sample_file = .ok l ∧ (size_fields l.decoder_start).1 ≤ 4096 := by
  refine ⟨by decide, ?_⟩
  obtain ⟨l, hl⟩ : ∃ l, main_load false sample_file = .ok l := ⟨_, by rfl⟩
  exact ⟨l, hl, (size_fields_lossless false sample_file l hl (by decide)).1⟩

/-- A witness for C12: the sample file starts with `(0x4D, 0x5A)`. -/
theorem signature_check_witness :
    32 ≤ sample_file.length ∧ main false sample_file ≠ .error .exeHeaderNotFound :=
  ⟨by decide,
    (signature_check false sample_file 0x4d 0x5a (by decide) (by rfl) (by rfl) (by decide)
      (by decide)).1.2 (Or.inl ⟨rfl, rfl⟩)⟩

end Defcr3
